import Mathlib

/-!
Verification of the PR review-and-repair engine against its specification.

The definitions below are shallow embeddings of the Python sources in
`src/review_agent/`.  Pure functions become Lean functions; stateful code
becomes explicit state passing; every interaction with an external
collaborator (the hosting provider, agent sessions, git, the test runner)
is a parameter of the embedding, supplied as explicit data.  Python `float`
values that the code only compares and copies are modelled as exact
rationals; Python `set` / `dict` become `Finset` / association lists.

String primitives (`split`, `strip`, `startswith`, slicing, `lower`) are
re-implemented structurally over `List Char` so that every definition
evaluates inside the kernel; each helper states which Python primitive it
translates.
-/

namespace ReviewAgent

/-! ## Python string primitives -/

/-- The whitespace characters stripped by Python `str.strip()` (ASCII range;
Unicode spaces play no role in the strings this program handles). -/
def pyIsSpace (c : Char) : Bool :=
  c = ' ' || c = '\t' || c = '\n' || c = '\r' || c = '\x0b' || c = '\x0c'

/-- `not s or not s.strip()`: true iff the string is empty or whitespace. -/
def pyStripEmpty (s : String) : Bool :=
  s.toList.all pyIsSpace

/-- ASCII case lowering, the fragment of Python `str.lower()` exercised by
this program (file paths, severities and descriptions are ASCII). -/
def pyCharLower (c : Char) : Char :=
  if 65 ≤ c.toNat && c.toNat ≤ 90 then Char.ofNat (c.toNat + 32) else c

/-- Python `s.lower()`. -/
def pyLower (s : String) : String :=
  String.mk (s.toList.map pyCharLower)

/-- Python slicing `s[:n]`. -/
def pyTake (n : Nat) (s : String) : String :=
  String.mk (s.toList.take n)

/-- Python `s[n:]` on a character list. -/
def pyDropList (n : Nat) (cs : List Char) : List Char :=
  cs.drop n

/-- Splitting on a single character, as `s.split('\n')` does (keeps empty
pieces, so the number of pieces is one more than the number of
separators). -/
def splitChar (c : Char) : List Char → List (List Char)
  | [] => [[]]
  | x :: xs =>
    let r := splitChar c xs
    if x = c then [] :: r
    else
      match r with
      | y :: ys => (x :: y) :: ys
      | [] => [[x]]

/-- Fuel-driven worker for `splitSeq`; the fuel starts at the input length
and each step consumes at least one character, so it never runs out. -/
def splitSeqAux (sep : List Char) : Nat → List Char → List (List Char)
  | _, [] => [[]]
  | 0, cs => [cs]
  | fuel + 1, c :: cs =>
    if sep.isPrefixOf (c :: cs) then
      [] :: splitSeqAux sep fuel ((c :: cs).drop sep.length)
    else
      match splitSeqAux sep fuel cs with
      | y :: ys => (c :: y) :: ys
      | [] => [[c]]

/-- Python `s.split(sep)` for a non-empty separator (leftmost,
non-overlapping). -/
def splitSeq (sep cs : List Char) : List (List Char) :=
  splitSeqAux sep cs.length cs

/-- Python `sub in s` (substring containment). -/
def pyContains (sub : List Char) (cs : List Char) : Bool :=
  (splitSeq sub cs).length != 1

/-- Python `sep.join(parts)` on character lists. -/
def joinSep (sep : List Char) : List (List Char) → List Char
  | [] => []
  | [x] => x
  | x :: xs => x ++ sep ++ joinSep sep xs

/-! ## Data model (`src/review_agent/models/issue.py`) -/

/-- `PotentialIssue` from `models/issue.py` (Stage-1 output).  Line numbers
are Python ints, modelled as `Int`. -/
structure PotentialIssue where
  file_path : String
  line_start : Int
  line_end : Int
  issue_type : String
  severity : String
  description : String
  code_snippet : String
deriving DecidableEq, Repr

/-- `ValidatedIssue` from `models/issue.py` (Stage-2 output).  The Python
`confidence: float` is modelled as an exact rational. -/
structure ValidatedIssue where
  issue : PotentialIssue
  is_valid : Bool
  evidence : List String := []
  library_reference : Option String := none
  mitigation : Option String := none
  confidence : Rat := 0
deriving DecidableEq, Repr

/-! ## Issue fingerprint (`pipeline/feedback_loop.py`, `_issue_hash`)

The source computes `hashlib.sha256(key.encode()).hexdigest()[:16]` over the
key string.  The SHA-256 digest-and-truncate step is a fixed deterministic
function of the key; it is abstracted here as a parameter `H`, so every
theorem about fingerprints holds for the actual digest function in
particular.  The key construction itself is translated literally. -/

/-- The key string of `_issue_hash`:
`f"{issue.issue.file_path}:{issue.issue.issue_type}:{desc}"` with
`desc = issue.issue.description[:100].lower()`. -/
def issueKey (v : ValidatedIssue) : String :=
  let desc := pyLower (pyTake 100 v.issue.description)
  v.issue.file_path ++ ":" ++ v.issue.issue_type ++ ":" ++ desc

/-- `_issue_hash`, with the SHA-256 hexdigest truncation abstracted as `H`. -/
def issue_hash (H : String → String) (v : ValidatedIssue) : String :=
  H (issueKey v)

/-! ## Diff parser (`src/review_agent/tools/diff_parser.py`) -/

/-- `Hunk` from `tools/diff_parser.py`. -/
structure Hunk where
  file_path : String
  old_start : Nat
  old_lines : Nat
  new_start : Nat
  new_lines : Nat
  content : String
  header : String
deriving DecidableEq, Repr

/-- `FileDiff` from `tools/diff_parser.py`. -/
structure FileDiff where
  old_path : Option String
  new_path : String
  hunks : List Hunk
  is_new_file : Bool := false
  is_deleted : Bool := false
deriving DecidableEq, Repr

/-- Digit run parser used to translate the `\d+` pieces of the hunk-header
regular expression (maximal munch, at least one digit). -/
def parseDigits (cs : List Char) : Option (Nat × List Char) :=
  let ds := cs.takeWhile (·.isDigit)
  if ds = [] then none
  else some (ds.foldl (fun n c => 10 * n + (c.toNat - 48)) 0, cs.dropWhile (·.isDigit))

/-- The optional `(?:,(\d+))?` regex piece: a comma followed by digits, or
nothing (a comma not followed by digits leaves the input untouched, exactly
as the unmatched optional group does). -/
def parseOptComma (cs : List Char) : Option Nat × List Char :=
  match cs with
  | ',' :: rest =>
    match parseDigits rest with
    | some (n, rest₂) => (some n, rest₂)
    | none => (none, ',' :: rest)
  | _ => (none, cs)

/-- Translation of the regular expression
`^@@ -(\d+)(?:,(\d+))? \+(\d+)(?:,(\d+))? @@(.*)$`
(the trailing group is not used by the parser). -/
def matchHunkHeader (cs : List Char) : Option (Nat × Option Nat × Nat × Option Nat) :=
  match cs with
  | '@' :: '@' :: ' ' :: '-' :: r₀ =>
    match parseDigits r₀ with
    | none => none
    | some (a, r₁) =>
      let (b, r₂) := parseOptComma r₁
      match r₂ with
      | ' ' :: '+' :: r₃ =>
        match parseDigits r₃ with
        | none => none
        | some (c, r₄) =>
          let (d, r₅) := parseOptComma r₄
          match r₅ with
          | ' ' :: '@' :: '@' :: _ => some (a, b, c, d)
          | _ => none
      | _ => none
  | _ => none

/-- Translation of `^diff --git a/(.*) b/(.*)$`: the first group is greedy,
so it extends to the last occurrence of the separator. -/
def matchFileHeader (cs : List Char) : Option (String × String) :=
  if ("diff --git a/".toList).isPrefixOf cs then
    match (splitSeq (" b/".toList) (cs.drop 13)).reverse with
    | last :: r₁ :: rest =>
      some (String.mk (joinSep (" b/".toList) (r₁ :: rest).reverse), String.mk last)
    | _ => none
  else none

/-- Mutable locals of `parse_pr_diff`, threaded explicitly.  Lines under
construction are kept as character lists. -/
structure DiffParseState where
  file_diffs : List FileDiff
  current_file : Option FileDiff
  cur_lines : List (List Char)
  cur_header : Option (List Char)

/-- `save_current_hunk` from `parse_pr_diff`: closes the hunk under
construction (re-matching the stored header, as the source does) and resets
the hunk accumulator. -/
def saveCurrentHunk (st : DiffParseState) : DiffParseState :=
  let st₂ :=
    match st.current_file, st.cur_header with
    | some f, some h =>
      if st.cur_lines ≠ [] then
        match matchHunkHeader h with
        | some (a, b, c, d) =>
          let hunk : Hunk :=
            { file_path := f.new_path, old_start := a, old_lines := b.getD 1,
              new_start := c, new_lines := d.getD 1,
              content := String.mk (joinSep ['\n'] st.cur_lines), header := String.mk h }
          { st with current_file := some { f with hunks := f.hunks ++ [hunk] } }
        | none => st
      else st
    | _, _ => st
  { st₂ with cur_lines := [], cur_header := none }

/-- One step of the line loop of `parse_pr_diff`. -/
def diffParseLine (st : DiffParseState) (line : List Char) : DiffParseState :=
  match matchFileHeader line with
  | some (oldP, newP) =>
    let st := saveCurrentHunk st
    let st :=
      match st.current_file with
      | some f => { st with file_diffs := st.file_diffs ++ [f] }
      | none => st
    { st with current_file := some { old_path := some oldP, new_path := newP, hunks := [] } }
  | none =>
    if st.current_file.isSome && ("new file mode".toList).isPrefixOf line then
      { st with current_file := st.current_file.map (fun f => { f with is_new_file := true }) }
    else if st.current_file.isSome && ("deleted file mode".toList).isPrefixOf line then
      { st with current_file := st.current_file.map (fun f => { f with is_deleted := true }) }
    else
      match matchHunkHeader line with
      | some _ =>
        let st := saveCurrentHunk st
        { st with cur_header := some line }
      | none =>
        if st.cur_header.isSome &&
            (['+'].isPrefixOf line || ['-'].isPrefixOf line || [' '].isPrefixOf line) then
          { st with cur_lines := st.cur_lines ++ [line] }
        else st

/-- `parse_pr_diff` from `tools/diff_parser.py`. -/
def parse_pr_diff (diff_text : String) : List FileDiff :=
  if pyStripEmpty diff_text then []
  else
    let lines := splitChar '\n' diff_text.toList
    let st := lines.foldl diffParseLine ⟨[], none, [], none⟩
    let st := saveCurrentHunk st
    match st.current_file with
    | some f => st.file_diffs ++ [f]
    | none => st.file_diffs

/-- `format_hunks` from `tools/diff_parser.py`. -/
def format_hunks (file_diffs : List FileDiff) : String :=
  if file_diffs = [] then "No changes found."
  else
    let parts := file_diffs.foldl (fun acc fd =>
      let status :=
        if fd.is_new_file then " (NEW FILE)"
        else if fd.is_deleted then " (DELETED)"
        else ""
      let acc := acc ++ ["\n### File: " ++ fd.new_path ++ status ++ "\n"]
      fd.hunks.enum.foldl (fun acc (p : Nat × Hunk) =>
        acc ++ ["\n#### Hunk " ++ toString (p.1 + 1) ++ " (lines " ++
                  toString p.2.new_start ++ "-" ++
                  toString ((p.2.new_start : Int) + p.2.new_lines - 1) ++ "):\n",
                "```diff", p.2.content, "```\n"]) acc) []
    String.mk (joinSep ['\n'] (parts.map (·.toList)))

/-! ## Stage 2 validation (`src/review_agent/pipeline/stage2_validate.py`)

The agent session is the external collaborator: a session either raises
(modelled as `.error` carrying `str(e)`) or completes leaving the list of
records the agent stored through the `store_verdict` tool.  The functions
below are the pure remainder of `validate_single_issue` / `validate_issues`
over that data. -/

/-- A record stored through the `store_verdict` tool.  Tool payloads are
untyped dicts read back with `dict.get`, so every key may be absent. -/
structure Verdict where
  is_valid : Option Bool
  evidence : Option (List String)
  library_reference : Option String
  mitigation : Option String
  confidence : Option Rat
deriving DecidableEq, Repr

/-- The tail of `validate_single_issue` (lines 180-198): build a
`ValidatedIssue` from the first stored verdict, or synthesize the
inconclusive result when no verdict was stored. -/
def validate_single_issue (issue : PotentialIssue) (verdicts : List Verdict) :
    ValidatedIssue :=
  match verdicts with
  | v :: _ =>
    { issue := issue
      is_valid := v.is_valid.getD false
      evidence := v.evidence.getD []
      library_reference := v.library_reference
      mitigation := v.mitigation
      confidence := v.confidence.getD 0 }
  | [] =>
    { issue := issue
      is_valid := false
      evidence := ["Validation inconclusive"]
      confidence := 0 }

/-- Outcome of one Stage-2 agent session, indexed by issue position. -/
abbrev SessionOutcome := Except String (List Verdict)

/-- The per-issue body shared by both branches of `validate_issues`: a
raised session contributes the `Validation failed` record instead of
failing the batch, a completed one goes through `validate_single_issue`. -/
def validateStep (outcomes : Nat → SessionOutcome) (p : Nat × PotentialIssue) :
    ValidatedIssue :=
  match outcomes p.1 with
  | .error e =>
    { issue := p.2, is_valid := false,
      evidence := ["Validation failed: " ++ e], confidence := 0 }
  | .ok vs => validate_single_issue p.2 vs

/-- Parallel branch of `validate_issues`: `asyncio.gather` returns results
in input order, exceptions are filtered into inconclusive records. -/
def validateIssuesParallel (outcomes : Nat → SessionOutcome)
    (issues : List PotentialIssue) : List ValidatedIssue :=
  issues.enum.map (validateStep outcomes)

/-- Sequential branch of `validate_issues`: the loop appends one result per
issue in input order. -/
def validateIssuesSequential (outcomes : Nat → SessionOutcome)
    (issues : List PotentialIssue) : List ValidatedIssue :=
  issues.enum.foldl (fun acc p => acc ++ [validateStep outcomes p]) []

/-- `validate_issues` from `stage2_validate.py`. -/
def validate_issues (outcomes : Nat → SessionOutcome)
    (issues : List PotentialIssue) (parallel : Bool) : List ValidatedIssue :=
  if issues = [] then []
  else if parallel then validateIssuesParallel outcomes issues
  else validateIssuesSequential outcomes issues

/-! ## Coverage gate (`src/review_agent/pipeline/stage4_coverage.py`,
`src/review_agent/config.py`, `src/review_agent/models/test_gen.py`)

The test-runner subprocess and the `coverage.json` report are external
collaborators: the embedding receives the runner's text output and the
decoded JSON report (already shaped, as `json.load` shapes it) as data. -/

/-- Digit list of a natural number (fuel-driven so that it reduces in the
kernel; the fuel `n + 1` always suffices). -/
def natDigitsAux : Nat → Nat → List Char
  | 0, _ => []
  | fuel + 1, n =>
    if n < 10 then [Char.ofNat (48 + n)]
    else natDigitsAux fuel (n / 10) ++ [Char.ofNat (48 + n % 10)]

/-- Python `str(n)` for a natural number. -/
def natToStr (n : Nat) : String :=
  String.mk (natDigitsAux (n + 1) n)

/-- Splitting on a character predicate, keeping empty pieces. -/
def splitPred (p : Char → Bool) : List Char → List (List Char)
  | [] => [[]]
  | x :: xs =>
    let r := splitPred p xs
    if p x then [] :: r
    else
      match r with
      | y :: ys => (x :: y) :: ys
      | [] => [[x]]

/-- Python `s.split()` (split on whitespace runs, no empty pieces). -/
def pySplitWs (cs : List Char) : List (List Char) :=
  (splitPred pyIsSpace cs).filter (· ≠ [])

/-- Python `int(s)` restricted to the digit strings that occur in pytest
summaries (`None` models the `ValueError` branch). -/
def pyNat? (cs : List Char) : Option Nat :=
  if cs ≠ [] && cs.all (·.isDigit) then
    some (cs.foldl (fun n c => 10 * n + (c.toNat - 48)) 0)
  else none

/-- Python `float(s)` for `[-]digits[.digits]` forms (the only forms in
coverage summaries); built with `mkRat` so the value is exact. -/
def pyRat? (cs : List Char) : Option Rat :=
  let (neg, cs) := match cs with
    | '-' :: rest => (true, rest)
    | _ => (false, cs)
  match splitChar '.' cs with
  | [ip] =>
    (pyNat? ip).map (fun n => if neg then -(n : Rat) else (n : Rat))
  | [ip, fp] =>
    match pyNat? ip, pyNat? fp with
    | some n, some f =>
      let v := mkRat (n * 10 ^ fp.length + f) (10 ^ fp.length)
      some (if neg then -v else v)
    | _, _ => none
  | _ => none

/-- State of the text-summary scan of `_parse_pytest_output`:
`(tests_passed, tests_failed, tests_skipped, total_coverage)`. -/
abbrev ScanState := Nat × Nat × Nat × Rat

/-- One line of the text-summary scan of `_parse_pytest_output`. -/
def scanLine (st : ScanState) (line : List Char) : ScanState :=
  let (p, f, s, tot) := st
  let (p, f, s) :=
    if pyContains (" passed".toList) line && !pyContains (" failed".toList) line then
      (pySplitWs line).enum.foldl (fun (acc : Nat × Nat × Nat) ip =>
        let (p, f, s) := acc
        let (i, w) := ip
        let prev : Option Nat :=
          if i > 0 then
            match (pySplitWs line)[i-1]? with
            | some bef => pyNat? bef
            | none => none
          else none
        let p := if w = "passed".toList && i > 0 then prev.getD p else p
        let f := if w = "failed".toList && i > 0 then prev.getD f else f
        let s := if w = "skipped".toList && i > 0 then prev.getD s else s
        (p, f, s)) (p, f, s)
    else (p, f, s)
  let tot :=
    if pyContains ("TOTAL".toList) line && pyContains ("%".toList) line then
      (pySplitWs line).foldl (fun tot w =>
        if ['%'].isSuffixOf w then
          match pyRat? (w.reverse.dropWhile (· = '%')).reverse with
          | some v => v
          | none => tot
        else tot) tot
    else tot
  (p, f, s, tot)

/-- One per-file entry of the decoded `coverage.json` report. -/
structure CovFileData where
  executed_lines : List Nat
  missing_lines : List Nat
deriving DecidableEq, Repr

/-- The decoded `coverage.json` report (`files` in JSON object order,
`totals.percent_covered` when present). -/
structure CovReport where
  files : List (String × CovFileData)
  totals_percent_covered : Option Rat
deriving DecidableEq, Repr

/-- `any(file_path.endswith(cf) or cf.endswith(file_path) for cf in
changed_files)`. -/
def fileMatchesChanged (fp : List Char) (changed_files : List String) : Bool :=
  changed_files.any (fun cf => cf.toList.isSuffixOf fp || fp.isSuffixOf cf.toList)

/-- `CoverageResult` from `models/test_gen.py` (the unused duration field is
omitted). -/
structure CoverageResult where
  total_coverage : Rat
  new_code_coverage : Rat
  uncovered_lines : List (String × List Nat) := []
  tests_passed : Nat := 0
  tests_failed : Nat := 0
  tests_skipped : Nat := 0
  coverage_report_path : Option String := none
deriving DecidableEq, Repr

/-- The `all_tests_passed` property of `CoverageResult`. -/
def CoverageResult.all_tests_passed (c : CoverageResult) : Bool :=
  c.tests_failed = 0

/-- The per-file step of the `coverage.json` walk in
`_parse_pytest_output`: accumulate `(new_covered, new_total,
uncovered_lines)` over the files matching the changed list. -/
def covWalkStep (changed_files : List String)
    (acc : Nat × Nat × List (String × List Nat)) (entry : String × CovFileData) :
    Nat × Nat × List (String × List Nat) :=
  let (nc, nt, unc) := acc
  let (fp, fd) := entry
  if fileMatchesChanged fp.toList changed_files then
    (nc + fd.executed_lines.length,
     nt + fd.missing_lines.length + fd.executed_lines.length,
     if fd.missing_lines ≠ [] then unc ++ [(fp, fd.missing_lines)] else unc)
  else (nc, nt, unc)

/-- `_parse_pytest_output` from `stage4_coverage.py`: text-summary scan,
then the `coverage.json` walk computing new-code coverage over the changed
files.  `covReport = none` models an absent `coverage.json`. -/
def _parse_pytest_output (output : String) (changed_files : List String)
    (covReport : Option CovReport) : CoverageResult :=
  let (p, f, s, textTotal) :=
    (splitChar '\n' output.toList).foldl scanLine (0, 0, 0, 0)
  match covReport with
  | none =>
    { total_coverage := textTotal, new_code_coverage := 0,
      uncovered_lines := [], tests_passed := p, tests_failed := f,
      tests_skipped := s, coverage_report_path := none }
  | some c =>
    let (newCovered, newTotal, unc) :=
      c.files.foldl (covWalkStep changed_files) (0, 0, [])
    let newCov : Rat :=
      if newTotal > 0 then (newCovered : Rat) / (newTotal : Rat) * 100 else 0
    { total_coverage := c.totals_percent_covered.getD textTotal,
      new_code_coverage := newCov, uncovered_lines := unc,
      tests_passed := p, tests_failed := f, tests_skipped := s,
      coverage_report_path := some "coverage.json" }

/-- `MergeRules` from `config.py` with its defaults (fields not consulted by
the embedded functions are omitted).  `max_medium_issues` is a Python int. -/
structure MergeRules where
  min_total_coverage : Rat := 80
  min_new_code_coverage : Rat := 90
  all_tests_must_pass : Bool := true
  block_on_critical : Bool := true
  block_on_high : Bool := true
  max_medium_issues : Int := 3
deriving DecidableEq, Repr

/-- `MergeDecision` from `models/test_gen.py`; the Python conditions dict is
an insertion-ordered association list. -/
structure MergeDecision where
  approved : Bool
  reason : String
  coverage : Option CoverageResult := none
  conditions_met : List (String × Bool) := []
  generated_tests_count : Nat := 0
  blocking_issues : List String := []
  recommendations : List String := []
deriving DecidableEq, Repr

/-- `i.is_valid and i.issue.severity.lower() == s`. -/
def validWithSeverity (v : ValidatedIssue) (s : String) : Bool :=
  v.is_valid && (pyLower v.issue.severity == s)

/-- `_check_conditions` from `stage4_coverage.py`: the six merge conditions
in dict insertion order (the three severity-filter locals are inlined). -/
def _check_conditions (rules : MergeRules) (coverage : CoverageResult)
    (issues : List ValidatedIssue) : List (String × Bool) :=
  [("all_tests_pass", coverage.all_tests_passed),
   ("min_total_coverage", decide (coverage.total_coverage ≥ rules.min_total_coverage)),
   ("min_new_code_coverage", decide (coverage.new_code_coverage ≥ rules.min_new_code_coverage)),
   ("no_critical_issues",
     decide ((issues.filter (fun i => validWithSeverity i "critical")).length = 0)),
   ("no_high_issues",
     if rules.block_on_high then
       decide ((issues.filter (fun i => validWithSeverity i "high")).length = 0)
     else true),
   ("medium_issues_limit",
     decide (((issues.filter (fun i => validWithSeverity i "medium")).length : Int)
       ≤ rules.max_medium_issues))]

/-- `conditions.get(k)` coerced through `not …`: an absent key behaves like
a failed condition. -/
def condGet (conditions : List (String × Bool)) (k : String) : Bool :=
  ((conditions.find? (fun p => p.1 == k)).map (·.2)).getD false

/-- Python `", ".join(parts)`. -/
def joinComma (xs : List String) : String :=
  String.mk (joinSep (", ".toList) (xs.map (·.toList)))

/-- CPython `f"{x:.1f}"` on the exact-rational model: one decimal digit,
ties to even (negative values do not occur in coverage percentages). -/
def fmt1 (q : Rat) : String :=
  let n : Int := q.num * 10
  let d : Int := (q.den : Int)
  let fl : Int := Int.fdiv n d
  let r : Int := n - fl * d
  let t : Int :=
    if 2 * r < d then fl
    else if 2 * r > d then fl + 1
    else if fl % 2 = 0 then fl else fl + 1
  let sign := if t < 0 then "-" else ""
  sign ++ natToStr (t.natAbs / 10) ++ "." ++ natToStr (t.natAbs % 10)

/-- CPython `str(float)` (shortest decimal form, always with a decimal
point) on the decimal-representable rationals that occur as thresholds. -/
def pyFloatStr (q : Rat) : String :=
  let sign := if q.num < 0 then "-" else ""
  match (List.range 18).find? (fun k => 10 ^ k % q.den = 0) with
  | some 0 => sign ++ natToStr q.num.natAbs ++ ".0"
  | some k =>
    let m := q.num.natAbs * (10 ^ k / q.den)
    let ds := natDigitsAux (m + 1) m
    let ds := if ds.length ≤ k then List.replicate (k + 1 - ds.length) '0' ++ ds else ds
    sign ++ String.mk (ds.take (ds.length - k)) ++ "." ++ String.mk (ds.drop (ds.length - k))
  | none => sign ++ natToStr q.num.natAbs ++ "/" ++ natToStr q.den

/-- `_make_decision` from `stage4_coverage.py`. -/
def _make_decision (rules : MergeRules) (conditions : List (String × Bool))
    (coverage : CoverageResult) (generated_tests_count : Nat) : MergeDecision :=
  let approved := conditions.all (·.2)
  let reason :=
    if approved then "All conditions met. PR is ready for merge."
    else "Blocked due to failed conditions: " ++
         joinComma ((conditions.filter (fun p => !p.2)).map (·.1))
  let blocking :=
    (if condGet conditions "all_tests_pass" = false then
       [natToStr coverage.tests_failed ++ " tests failed"] else []) ++
    (if condGet conditions "min_total_coverage" = false then
       ["Total coverage " ++ fmt1 coverage.total_coverage ++ "% < " ++
        pyFloatStr rules.min_total_coverage ++ "%"] else []) ++
    (if condGet conditions "min_new_code_coverage" = false then
       ["New code coverage " ++ fmt1 coverage.new_code_coverage ++ "% < " ++
        pyFloatStr rules.min_new_code_coverage ++ "%"] else []) ++
    (if condGet conditions "no_critical_issues" = false then
       ["Critical issues found"] else []) ++
    (if condGet conditions "no_high_issues" = false then
       ["High severity issues found"] else [])
  let recommendations :=
    (if coverage.uncovered_lines ≠ [] then ["Add tests for uncovered lines"] else []) ++
    (if coverage.tests_failed > 0 then ["Fix failing tests before merge"] else []) ++
    (if condGet conditions "min_new_code_coverage" = false then
       ["Increase test coverage for new code"] else [])
  { approved := approved, reason := reason, coverage := some coverage,
    conditions_met := conditions, generated_tests_count := generated_tests_count,
    blocking_issues := blocking, recommendations := recommendations }

/-! ## Feedback loop (`src/review_agent/pipeline/feedback_loop.py`)

`run_feedback_loop` is a `for` loop over iterations `1 .. max_iterations`
whose body awaits external collaborators: the diff fetch, the Stage-1 and
Stage-2 agent sessions, the per-issue fix sessions, the test runner and the
git subprocesses.  Each collaborator is a field of `IterEnv`; an operation
that can raise is an `Except` (the body's `try/except` catches it, records
an `ERROR` status and breaks).  `_fix_single_issue`, `_run_tests`,
`_checkout_branch`, `_pull_latest`, `_revert_changes`, `_commit_and_push`
and `_do_merge` catch their own exceptions and so are total data:
`_run_tests` a `Bool`, `_commit_and_push` an `Option` of the commit SHA,
`_do_merge` a `Bool`.  The pre-loop branch lookup and checkout have no
effect on the loop state.  `commit_message_prefix`, `test_command` and
`working_dir` are forwarded verbatim to collaborators and are omitted from
the config, as is the wall-clock `duration_ms` field of the status. -/

/-- `LoopResult` from `feedback_loop.py`. -/
inductive LoopResult
  | merged
  | ready_to_merge
  | max_iterations
  | unfixable
  | test_failed
  | error
deriving DecidableEq, Repr

/-- `LoopConfig` from `feedback_loop.py` with its defaults. -/
structure LoopConfig where
  max_iterations : Nat := 5
  auto_fix : Bool := true
  auto_merge : Bool := true
  min_severity_to_fix : String := "medium"
  skip_repeated_issues : Bool := true
  run_tests : Bool := false
  require_tests_pass : Bool := false
deriving Repr

/-- `LoopStatus` from `feedback_loop.py` (without the wall-clock field). -/
structure LoopStatus where
  iteration : Nat
  issues_found : Nat := 0
  issues_fixed : Nat := 0
  issues_skipped : Nat := 0
  tests_passed : Option Bool := none
  commit_sha : Option String := none
  result : Option LoopResult := none
  error : Option String := none
deriving DecidableEq, Repr

/-- `FixResult` from `feedback_loop.py`. -/
structure FixResult where
  issue_hash : String
  file_path : String
  success : Bool
  error : Option String := none
  changes_made : Bool := false
deriving DecidableEq, Repr

/-- Behaviour of one per-issue fix attempt in `_fix_issues_batch`: the body
may raise (caught per issue), find the target file missing, or run the fix
session (`ok` is `_fix_single_issue`'s return value, `pre`/`post` the file
content before and after the session). -/
inductive FixSession
  | raised (msg : String)
  | missing
  | ran (ok : Bool) (pre post : String)
deriving DecidableEq, Repr

/-- External collaborators of one loop iteration. -/
structure IterEnv where
  diff : Except String String
  identified : String → Except String (List PotentialIssue)
  validated : List PotentialIssue → Except String (List ValidatedIssue)
  postComments : Except String Unit
  fixSessions : Nat → FixSession
  testsPass : Bool
  commitSha : Option String

/-- The cross-iteration mutable state of `run_feedback_loop`:
`attempted_issues`, `unfixable_issues` and `fixed_in_iteration`. -/
structure LoopState where
  attempted : Finset String
  unfixable : Finset String
  fixedInIteration : List (Nat × List String)

/-- `_get_changed_files_from_diff` from `feedback_loop.py`. -/
def _get_changed_files_from_diff (diff_text : String) : Finset String :=
  ((splitChar '\n' diff_text.toList).foldl (fun files line =>
    if ("+++ b/".toList).isPrefixOf line || ("--- a/".toList).isPrefixOf line then
      insert (String.mk (line.drop 6)) files
    else files) (∅ : Finset String)).erase "/dev/null"

/-- `severity_order` from `run_feedback_loop` step 2. -/
def severity_order : List String := ["low", "medium", "high", "critical"]

/-- `list.index` returning `none` instead of raising `ValueError`. -/
def listIndexOf? (s : String) : List String → Option Nat
  | [] => none
  | x :: xs => if x = s then some 0 else (listIndexOf? s xs).map (· + 1)

/-- The severity-and-changed-files filter applied to Stage-1 issues
(`run_feedback_loop`, lines 219-230): `min_idx` falls back to 0 when the
configured severity is unknown, and an issue survives iff its lowered
severity is in `severity_order` at index `≥ min_idx` and its file is in the
changed set. -/
def stage1Filter (cfg : LoopConfig) (changed_files : Finset String)
    (issues : List PotentialIssue) : List PotentialIssue :=
  let min_idx := (listIndexOf? cfg.min_severity_to_fix severity_order).getD 0
  issues.filter (fun i =>
    match listIndexOf? (pyLower i.severity) severity_order with
    | some k => decide (k ≥ min_idx) && decide (i.file_path ∈ changed_files)
    | none => false)

/-- The duplicate-issue filter (`run_feedback_loop`, lines 255-268):
returns the surviving issues, the skip count, and the updated unfixable
set (an issue whose fingerprint was already attempted is promoted to
unfixable). -/
def skipFilter (H : String → String) (issues : List ValidatedIssue)
    (attempted unfixable : Finset String) :
    List ValidatedIssue × Nat × Finset String :=
  issues.foldl (fun acc issue =>
    let (kept, skipped, unfix) := acc
    let issue_id := issue_hash H issue
    if issue_id ∈ unfix then (kept, skipped + 1, unfix)
    else if issue_id ∈ attempted then (kept, skipped + 1, insert issue_id unfix)
    else (kept ++ [issue], skipped, unfix)) ([], 0, unfixable)

/-- The `FixResult` built for one issue in `_fix_issues_batch`, as a
function of the session behaviour. -/
def fixResultFor (H : String → String) (s : FixSession) (issue : ValidatedIssue) :
    FixResult :=
  let issue_id := issue_hash H issue
  match s with
  | .raised msg =>
    { issue_hash := issue_id, file_path := issue.issue.file_path,
      success := false, error := some msg, changes_made := false }
  | .missing =>
    { issue_hash := issue_id, file_path := issue.issue.file_path,
      success := false, error := some "File not found", changes_made := false }
  | .ran ok pre post =>
    { issue_hash := issue_id, file_path := issue.issue.file_path,
      success := ok, error := none, changes_made := pre != post }

/-- The loop of `_fix_issues_batch`: every issue's fingerprint is added to
`attempted` before its fix attempt, and one `FixResult` is appended per
issue. -/
def fixBatchGo (H : String → String) (sessions : Nat → FixSession) :
    Nat → List ValidatedIssue → Finset String → List FixResult × Finset String
  | _, [], att => ([], att)
  | i, issue :: rest, att =>
    let att := insert (issue_hash H issue) att
    let result := fixResultFor H (sessions i) issue
    let (results, att₂) := fixBatchGo H sessions (i + 1) rest att
    (result :: results, att₂)

/-- `_fix_issues_batch` from `feedback_loop.py`. -/
def _fix_issues_batch (H : String → String) (issues : List ValidatedIssue)
    (attempted : Finset String) (sessions : Nat → FixSession) :
    List FixResult × Finset String :=
  fixBatchGo H sessions 0 issues attempted

/-- Steps 4-5 of one iteration (`run_feedback_loop`, lines 280-347): post
comments or fix, run tests, and commit. -/
def fixPhase (H : String → String) (cfg : LoopConfig) (iteration : Nat)
    (env : IterEnv) (st : LoopState) (status : LoopStatus)
    (valid : List ValidatedIssue) : LoopState × LoopStatus × Bool :=
  if ¬ cfg.auto_fix then
    match env.postComments with
    | .error e => (st, { status with error := some e, result := some .error }, true)
    | .ok _ => (st, { status with result := some .unfixable }, true)
  else
    let (fix_results, att) := _fix_issues_batch H valid st.attempted env.fixSessions
    let st := { st with attempted := att }
    let successful := fix_results.filter (fun r => r.success && r.changes_made)
    let status := { status with issues_fixed := successful.length }
    let st := { st with fixedInIteration :=
      st.fixedInIteration.map (fun p =>
        if p.1 = iteration then (p.1, successful.map (·.issue_hash)) else p) }
    if successful.length = 0 then
      let unfix₂ := valid.foldl (fun u issue => insert (issue_hash H issue) u) st.unfixable
      let st := { st with unfixable := unfix₂ }
      (st, { status with result := some .unfixable }, true)
    else
      let (status, testGate) :=
        if cfg.run_tests then
          ({ status with tests_passed := some env.testsPass },
           !env.testsPass && cfg.require_tests_pass)
        else (status, false)
      if testGate then
        let unfix₂ := successful.foldl (fun u r => insert r.issue_hash u) st.unfixable
        let st := { st with unfixable := unfix₂ }
        (st, { status with result := some .test_failed }, true)
      else
        (st, { status with commit_sha := env.commitSha }, false)

/-- One iteration body of `run_feedback_loop` (lines 177-357): returns the
updated cross-iteration state, the iteration's status record (the caller
appends it, exactly once per executed iteration) and whether the loop
breaks. -/
def iterationStep (H : String → String) (cfg : LoopConfig) (iteration : Nat)
    (env : IterEnv) (st : LoopState) : LoopState × LoopStatus × Bool :=
  let status : LoopStatus := { iteration := iteration }
  let st := { st with fixedInIteration := st.fixedInIteration ++ [(iteration, [])] }
  match env.diff with
  | .error e => (st, { status with error := some e, result := some .error }, true)
  | .ok diff_text =>
    if pyStripEmpty diff_text then
      (st, { status with result := some .ready_to_merge }, true)
    else
      let changed_files := _get_changed_files_from_diff diff_text
      match env.identified (format_hunks (parse_pr_diff diff_text)) with
      | .error e => (st, { status with error := some e, result := some .error }, true)
      | .ok found =>
        let potential := stage1Filter cfg changed_files found
        if potential = [] then
          (st, { status with result := some .ready_to_merge }, true)
        else
          match env.validated potential with
          | .error e => (st, { status with error := some e, result := some .error }, true)
          | .ok validated =>
            let valid := validated.filter (·.is_valid)
            let status := { status with issues_found := valid.length }
            if valid = [] then
              (st, { status with result := some .ready_to_merge }, true)
            else
              if cfg.skip_repeated_issues then
                let (valid₂, skipped, unfix) := skipFilter H valid st.attempted st.unfixable
                let status := { status with issues_skipped := skipped }
                let st := { st with unfixable := unfix }
                if valid₂ = [] then
                  if st.unfixable.Nonempty then
                    (st, { status with result := some .unfixable }, true)
                  else
                    (st, { status with result := some .ready_to_merge }, true)
                else
                  fixPhase H cfg iteration env st status valid₂
              else
                fixPhase H cfg iteration env st status valid

/-- The `for iteration in range(1, max_iterations + 1)` loop: processes
`remaining` iterations starting at `iteration`, appending one status per
executed iteration, stopping early on `break`. -/
def runIterations (H : String → String) (cfg : LoopConfig) (envs : Nat → IterEnv) :
    Nat → Nat → LoopState → List LoopStatus → List LoopStatus × LoopState
  | _, 0, st, acc => (acc, st)
  | iteration, r + 1, st, acc =>
    let (st₂, status, brk) := iterationStep H cfg iteration (envs iteration) st
    let acc := acc ++ [status]
    if brk then (acc, st₂)
    else runIterations H cfg envs (iteration + 1) r st₂ acc

/-- Replace the last status by `f` of it (identity on the empty list). -/
def mapLast (f : LoopStatus → LoopStatus) (statuses : List LoopStatus) :
    List LoopStatus :=
  match statuses.getLast? with
  | none => statuses
  | some s => statuses.dropLast ++ [f s]

/-- `if statuses and statuses[-1].result is None: statuses[-1].result =
MAX_ITERATIONS`. -/
def patchMaxIterations (statuses : List LoopStatus) : List LoopStatus :=
  mapLast (fun s => if s.result = none then { s with result := some .max_iterations }
                    else s) statuses

/-- External collaborators of a whole loop run (`mergeOk` is `_do_merge`,
which catches its own exceptions). -/
structure LoopEnv where
  iter : Nat → IterEnv
  mergeOk : Bool

/-- The value returned by `run_feedback_loop`, together with the final
tracking sets (locals of the source function, exposed for the theorems). -/
structure LoopOutcome where
  result : LoopResult
  statuses : List LoopStatus
  attempted : Finset String
  unfixable : Finset String
  fixedInIteration : List (Nat × List String)

/-- `run_feedback_loop` from `feedback_loop.py`. -/
def run_feedback_loop (H : String → String) (cfg : LoopConfig) (env : LoopEnv) :
    LoopOutcome :=
  let (statuses, st) := runIterations H cfg env.iter 1 cfg.max_iterations ⟨∅, ∅, []⟩ []
  let statuses := patchMaxIterations statuses
  let final :=
    match statuses.getLast? with
    | some s => s.result.getD .error
    | none => .error
  let (final, statuses) :=
    if final = LoopResult.ready_to_merge ∧ cfg.auto_merge ∧ env.mergeOk then
      (LoopResult.merged, mapLast (fun s => { s with result := some .merged }) statuses)
    else (final, statuses)
  { result := final, statuses := statuses, attempted := st.attempted,
    unfixable := st.unfixable, fixedInIteration := st.fixedInIteration }

/-! ## Dependency analysis (`src/review_agent/orchestrator/dependency.py`)

`DependencyAnalyzer` holds two dicts rebuilt from scratch by
`build_dependency_graph` at the start of every operation; they are modelled
as the functions `prDeps` / `revDeps` of the PR list.  Python `list.sort()`
is modelled by a structural insertion sort (`sortBy`), which like
`list.sort` is stable and orders ascending. -/

/-- `PRNode` from `models/orchestrator.py`.  The fields not consulted by
the embedded functions (status, conflicts_with, review_result, updated_at)
are omitted; `created_at` is a timestamp. -/
structure PRNode where
  pr_number : Nat
  branch : String
  base : String
  changed_files : List String := []
  depends_on : List Nat := []
  created_at : Nat := 0
deriving DecidableEq, Repr

/-- Stable insertion of `n` into a list sorted by `key`. -/
def insertSortedBy (key : Nat → Nat) (n : Nat) : List Nat → List Nat
  | [] => [n]
  | x :: xs => if key n ≤ key x then n :: x :: xs else x :: insertSortedBy key n xs

/-- Python `list.sort(key=...)`: stable ascending sort by `key`. -/
def sortBy (key : Nat → Nat) (l : List Nat) : List Nat :=
  l.foldr (insertSortedBy key) []

/-- Python `list.sort()` on ints. -/
def sortNat (l : List Nat) : List Nat := sortBy id l

/-- The PR numbers of a node list, as a list (`[pr.pr_number for pr in
prs]`). -/
def prNumbersList (prs : List PRNode) : List Nat := prs.map (·.pr_number)

/-- `pr_numbers = {pr.pr_number for pr in prs}`. -/
def prNumbers (prs : List PRNode) : Finset Nat := (prNumbersList prs).toFinset

/-- `pr_by_branch = {pr.branch: pr.pr_number for pr in prs}`: on duplicate
branch names a later PR overwrites an earlier one. -/
def prByBranch (prs : List PRNode) (b : String) : Option Nat :=
  (prs.reverse.find? (fun pr => pr.branch = b)).map (·.pr_number)

/-- `self._graph[n]` as built by `build_dependency_graph`: PR `n` depends on
each member (the branch-based dependency plus the explicit `depends_on`
list, accumulated over every node carrying the number `n`). -/
def prDeps (prs : List PRNode) (n : Nat) : Finset Nat :=
  prs.foldl (fun acc pr =>
    if pr.pr_number = n then
      let acc := match prByBranch prs pr.base with
        | some dep => insert dep acc
        | none => acc
      pr.depends_on.foldl (fun a d => insert d a) acc
    else acc) ∅

/-- PR `x` depends on PR `y` (an edge of the dependency graph). -/
abbrev depEdge (prs : List PRNode) (x y : Nat) : Prop := y ∈ prDeps prs x

/-- The in-set dependencies of `x`: the ones counted by `in_degree`. -/
def inDeps (prs : List PRNode) (x : Nat) : Finset Nat :=
  (prDeps prs x).filter (· ∈ prNumbers prs)

/-- `self._reverse_graph[d]`: the dependents of `d`.  Every dependent is a
PR number of `prs` (the mirrored edges are keyed by `pr.pr_number`). -/
def revDeps (prs : List PRNode) (d : Nat) : Finset Nat :=
  (prNumbers prs).filter (fun m => d ∈ prDeps prs m)

/-- `revDeps` enumerated as a duplicate-free list for the inner loop of the
sort (Python iterates the set in unspecified order; the queue is re-sorted
before every pop, so the iteration order is unobservable). -/
def revDepsList (prs : List PRNode) (d : Nat) : List Nat :=
  sortNat (((prNumbersList prs).dedup).filter (fun m => d ∈ prDeps prs m))

/-- The mutable locals of Kahn's algorithm in `topological_sort`. -/
structure KahnState where
  queue : List Nat
  indeg : Nat → Int
  result : List Nat

/-- `in_degree` after the initial count, and the initial queue of
dependency-free PRs. -/
def kahnInit (prs : List PRNode) : KahnState :=
  let indeg : Nat → Int := fun p => ((inDeps prs p).card : Int)
  { queue := sortNat (((prNumbersList prs).dedup).filter (fun p => indeg p = 0)),
    indeg := indeg,
    result := [] }

/-- The inner decrement of the sort loop: `in_degree[dependent] -= 1`,
enqueueing the dependent when its in-degree reaches zero. -/
def kahnDecr (acc : (Nat → Int) × List Nat) (dep : Nat) : (Nat → Int) × List Nat :=
  let v := acc.1 dep - 1
  (Function.update acc.1 dep v, if v = 0 then acc.2 ++ [dep] else acc.2)

/-- One pass of the `while queue:` loop of `topological_sort`: sort the
queue, pop the smallest PR, append it to the result, decrement the
in-degree of each in-set dependent and enqueue those reaching zero. -/
def kahnStep (prs : List PRNode) (s : KahnState) : KahnState :=
  match sortNat s.queue with
  | [] => s
  | current :: rest =>
    let step := (revDepsList prs current).foldl kahnDecr (s.indeg, rest)
    { queue := step.2, indeg := step.1, result := s.result ++ [current] }

/-- The `while` loop, fuel-bounded: each pass appends one PR to the result
and the result never exceeds the number of distinct PRs, so
`(prNumbers prs).card` passes always suffice (proved in
`kahnRun_spec`). -/
def kahnRun (prs : List PRNode) : Nat → KahnState → KahnState
  | 0, s => s
  | fuel + 1, s => if s.queue = [] then s else kahnRun prs fuel (kahnStep prs s)

/-- `topological_sort` from `dependency.py` (the Python `ValueError`
message interpolates the remaining PR set; the interpolation is dropped
here). -/
def topological_sort (prs : List PRNode) : Except String (List Nat) :=
  let s := kahnRun prs (prNumbers prs).card (kahnInit prs)
  if s.result.length ≠ (prNumbers prs).card then
    .error "Circular dependency detected"
  else .ok s.result

/-- The loop invariant of Kahn's algorithm (verification support, not part
of the source): the queue and result are duplicate-free in-set PRs, the
in-degree function counts unresolved in-set dependencies, the queue holds
exactly the unprocessed PRs with no unresolved dependency, and every
processed PR was emitted after all its in-set dependencies. -/
structure KahnInv (prs : List PRNode) (s : KahnState) : Prop where
  resS : ∀ x ∈ s.result, x ∈ prNumbers prs
  queueS : ∀ x ∈ s.queue, x ∈ prNumbers prs
  resNodup : s.result.Nodup
  queueNodup : s.queue.Nodup
  indegSpec : ∀ x ∈ prNumbers prs,
    s.indeg x = (((inDeps prs x).filter (· ∉ s.result)).card : Int)
  queueChar : ∀ x ∈ prNumbers prs,
    (x ∈ s.queue ↔ (x ∉ s.result ∧ s.indeg x = 0))
  topo : ∀ (j : Nat) (hj : j < s.result.length),
    ∀ y ∈ inDeps prs (s.result.get ⟨j, hj⟩), y ∈ s.result.take j

/-- An in-set dependency edge (both endpoints are PR numbers of `prs`). -/
abbrev inEdge (prs : List PRNode) (a b : Nat) : Prop := b ∈ inDeps prs a

/-- Verification support: no PR lying on a dependency cycle is ever
processed or queued. -/
def KahnNoCyc (prs : List PRNode) (s : KahnState) : Prop :=
  ∀ z, Relation.TransGen (inEdge prs) z z → z ∉ s.result ∧ z ∉ s.queue

/-- Fixture: an acyclic pair of PRs — PR 2 explicitly depends on PR 1. -/
def prs6a : List PRNode :=
  [{ pr_number := 1, branch := "feature-1", base := "main" },
   { pr_number := 2, branch := "feature-2", base := "main", depends_on := [1] }]

/-- Fixture: a dependency cycle — PR 1 and PR 2 depend on each other. -/
def prs6b : List PRNode :=
  [{ pr_number := 1, branch := "feature-1", base := "main", depends_on := [2] },
   { pr_number := 2, branch := "feature-2", base := "main", depends_on := [1] }]

/-! ### Conflict prediction (`src/review_agent/orchestrator/conflict.py`)

`get_conflict_free_order` groups PRs whose changed files overlap, directly
or transitively, with a union-find; sorts each group ascending by creation
time; and walks `base_order`, emitting the whole conflict group of a PR at
its first member and every other PR as a singleton. -/

/-- First-occurrence deduplication with an accumulator of already seen
elements (Python dict and set iteration follows insertion order). -/
def dedupFirstAux {α : Type} [DecidableEq α] : List α → List α → List α
  | _, [] => []
  | seen, x :: xs =>
    if x ∈ seen then dedupFirstAux seen xs else x :: dedupFirstAux (x :: seen) xs

/-- The distinct elements of `l`, each at its first occurrence. -/
def dedupFirst {α : Type} [DecidableEq α] (l : List α) : List α := dedupFirstAux [] l

/-- The numbers of the PRs declaring `f` among their changed files, in
`prs` order, with possible duplicates. -/
def filePrsList (prs : List PRNode) (f : String) : List Nat :=
  (prs.filter (fun pr => f ∈ pr.changed_files)).map (·.pr_number)

/-- `self._file_to_prs[f]` as built by `analyze` (a Python set of PR
numbers).  The directory index `_dir_to_prs` is also built there but never
consulted by `get_conflict_free_order`, so it is not modelled. -/
def filePrs (prs : List PRNode) (f : String) : Finset Nat :=
  (filePrsList prs f).toFinset

/-- `list(pr_set)`: CPython enumerates a set of small nonnegative ints in
ascending value order (the hash of such an int is the int itself). -/
def filePrsSorted (prs : List PRNode) (f : String) : List Nat :=
  sortNat (filePrsList prs f).dedup

/-- The keys of `self._file_to_prs`, in insertion order: first occurrence
while scanning `prs` and, per PR, its changed files in order. -/
def indexFiles (prs : List PRNode) : List String :=
  dedupFirst (prs.flatMap (·.changed_files))

/-- The parent-map chase of the union-find `find`, fuel-bounded. -/
def findRoot (m : Nat → Nat) : Nat → Nat → Nat
  | 0, x => x
  | fuel + 1, x => if m x = x then x else findRoot m fuel (m x)

/-- `find(x)`: the root of `x`.  A parent chain built by the unions never
revisits a PR number (proved as `UFInv.acyc` below), so `|prs| + 1` steps
always reach the root.  The path compression performed by the Python
`find` caches roots without changing the root of any element, so it is
not modelled. -/
def ufFind (prs : List PRNode) (m : Nat → Nat) (x : Nat) : Nat :=
  findRoot m (prs.length + 1) x

/-- `union(x, y)`: link the root of `x` under the root of `y` when they
differ. -/
def ufUnion (prs : List PRNode) (m : Nat → Nat) (x y : Nat) : Nat → Nat :=
  let px := ufFind prs m x
  let py := ufFind prs m y
  if px = py then m else Function.update m px py

/-- The union calls issued per file of the index:
`union(pr_list[0], pr_list[i])` for `i = 1, ...`. -/
def unionPairs (prs : List PRNode) : List (Nat × Nat) :=
  (indexFiles prs).flatMap (fun f =>
    match filePrsSorted prs f with
    | [] => []
    | p :: rest => rest.map (fun q => (p, q)))

/-- The parent map after all unions.  The Python map starts as
`parent = {pr: pr for pr in pr_numbers}`, the identity on its domain. -/
def buildUF (prs : List PRNode) : Nat → Nat :=
  (unionPairs prs).foldl (fun m pq => ufUnion prs m pq.1 pq.2) id

/-- `_find_conflict_groups`: group the PR numbers by union-find root and
keep the groups of two or more.  `groups` is a dict keyed by root in
first-appearance order, each group listing its members in `pr_numbers`
order. -/
def _find_conflict_groups (prs : List PRNode) : List (List Nat) :=
  let m := buildUF prs
  let nums := prNumbersList prs
  let roots := dedupFirst (nums.map (fun p => ufFind prs m p))
  (roots.map (fun r => nums.filter (fun p => ufFind prs m p == r))).filter
    (fun g => 1 < g.length)

/-- `pr_map[n].created_at`: on duplicate PR numbers the later node wins. -/
def createdOf (prs : List PRNode) (n : Nat) : Nat :=
  ((prs.reverse.find? (fun pr => pr.pr_number == n)).map (·.created_at)).getD 0

/-- The group-emission inner loop of `get_conflict_free_order`: append
each group member not yet used to `result` and `used`. -/
def emitGroup (g : List Nat) (acc : List Nat × List Nat) : List Nat × List Nat :=
  g.foldl (fun acc x =>
    if x ∈ acc.2 then acc else (acc.1 ++ [x], acc.2 ++ [x])) acc

/-- The `for pr_num in base_order:` walk of `get_conflict_free_order`
over the state `(result, used)`: a used PR is skipped, the first member of
a conflict group emits the whole group, and a PR of no group is emitted
alone. -/
def walkGroups (groups : List (List Nat)) :
    List Nat → List Nat → List Nat → List Nat
  | [], result, _ => result
  | pr :: rest, result, used =>
    if pr ∈ used then walkGroups groups rest result used
    else
      match groups.find? (fun g => decide (pr ∈ g)) with
      | some g =>
        let acc := emitGroup g (result, used)
        walkGroups groups rest acc.1 acc.2
      | none => walkGroups groups rest (result ++ [pr]) (used ++ [pr])

/-- `get_conflict_free_order` from `conflict.py`. -/
def get_conflict_free_order (prs : List PRNode) (base_order : List Nat) :
    List Nat :=
  let groups := (_find_conflict_groups prs).map (fun g => sortBy (createdOf prs) g)
  walkGroups groups base_order [] []

/-- PR numbers `a` and `b` both change the file `f` for some `f`: one
union edge worth of overlap. -/
def sharesFile (prs : List PRNode) (a b : Nat) : Prop :=
  ∃ f, a ∈ filePrs prs f ∧ b ∈ filePrs prs f

/-- Verification support, not part of the source: the parent maps the
union-find can reach.  Every non-fixpoint entry stays inside the PR
numbers, and the only cycles of the map are the fixpoints of its roots,
which is what makes the recursive Python `find` terminate. -/
structure UFInv (prs : List PRNode) (m : Nat → Nat) : Prop where
  support : ∀ x, m x ≠ x → x ∈ prNumbers prs ∧ m x ∈ prNumbers prs
  acyc : ∀ x n, 0 < n → m^[n] x = x → m x = x

/-- Fixture: the PR that modifies `shared.py` first (creation time 0). -/
def pr7a : PRNode :=
  { pr_number := 1, branch := "feature-1", base := "main",
    changed_files := ["shared.py"], created_at := 0 }

/-- Fixture: a later PR (creation time 1) touching the same file. -/
def pr7b : PRNode :=
  { pr_number := 2, branch := "feature-2", base := "main",
    changed_files := ["shared.py"], created_at := 1 }

/-- Fixture: scenario S3 — two PRs that both modify `shared.py`. -/
def prs7 : List PRNode := [pr7a, pr7b]

/-! ### Concrete feedback-loop fixture

A one-iteration run with two surviving valid issues: the first one's fix
session changes its file, the second one's fix session leaves its file
unchanged.  Used to probe what the loop does with a fix-ineffective issue
when another fix succeeded in the same iteration. -/

/-- Fixture: surviving issue in `a.py` whose fix changes the file. -/
def potC2a : PotentialIssue :=
  { file_path := "a.py", line_start := 1, line_end := 1, issue_type := "bug",
    severity := "high", description := "issue a", code_snippet := "xa" }

/-- Fixture: surviving issue in `b.py` whose fix session leaves the file
unchanged. -/
def potC2b : PotentialIssue :=
  { file_path := "b.py", line_start := 2, line_end := 2, issue_type := "bug",
    severity := "high", description := "issue b", code_snippet := "xb" }

/-- Fixture: `potC2a` validated as real. -/
def valC2a : ValidatedIssue := { issue := potC2a, is_valid := true, confidence := 1 }

/-- Fixture: `potC2b` validated as real. -/
def valC2b : ValidatedIssue := { issue := potC2b, is_valid := true, confidence := 1 }

/-- Fixture: one iteration, auto-fix on, no tests, no merge. -/
def cfgC2 : LoopConfig := { max_iterations := 1, auto_merge := false }

/-- Fixture environment: both issues identified and validated; the fix
session for issue 0 rewrites the file, the one for issue 1 returns it
byte-identical. -/
def envC2 : LoopEnv :=
  { iter := fun _ =>
      { diff := .ok "--- a/a.py\n+++ b/a.py\n--- a/b.py\n+++ b/b.py",
        identified := fun _ => .ok [potC2a, potC2b],
        validated := fun _ => .ok [valC2a, valC2b],
        postComments := .ok (),
        fixSessions := fun i =>
          if i = 0 then .ran true "old" "new" else .ran true "same" "same",
        testsPass := true,
        commitSha := some "deadbeef" },
    mergeOk := false }

end ReviewAgent

theorem foldl_append_eq_map {α β : Type} (f : α → β) (l : List α) (acc : List β) :
    l.foldl (fun acc p => acc ++ [f p]) acc = acc ++ l.map f := by
  induction l generalizing acc with
  | nil => simp
  | cons x xs ih => simp [ih]

theorem validate_issues_eq_map (outcomes : Nat → ReviewAgent.SessionOutcome)
    (issues : List ReviewAgent.PotentialIssue) (parallel : Bool) :
    ReviewAgent.validate_issues outcomes issues parallel
      = issues.enum.map (ReviewAgent.validateStep outcomes) := by
  unfold ReviewAgent.validate_issues ReviewAgent.validateIssuesParallel
    ReviewAgent.validateIssuesSequential
  split
  · simp_all
  · split
    · rfl
    · simpa using foldl_append_eq_map (ReviewAgent.validateStep outcomes) issues.enum []

theorem validateStep_issue (outcomes : Nat → ReviewAgent.SessionOutcome)
    (p : Nat × ReviewAgent.PotentialIssue) :
    (ReviewAgent.validateStep outcomes p).issue = p.2 := by
  unfold ReviewAgent.validateStep ReviewAgent.validate_single_issue
  rcases outcomes p.1 with e | vs
  · rfl
  · rcases vs with _ | ⟨v, rest⟩ <;> rfl

/-- Claim C1: the feedback loop issue fingerprint depends only on the issue
file path, its issue kind, and the first 100 characters of its description
lowercased; two issues agreeing on those three components (in particular two
issues differing only in `line_start` / `line_end`) have identical
fingerprints. -/
theorem c1_issue_hash_ignores_line_numbers
    (H : String → String) (v₁ v₂ : ReviewAgent.ValidatedIssue)
    (hfp : v₁.issue.file_path = v₂.issue.file_path)
    (hty : v₁.issue.issue_type = v₂.issue.issue_type)
    (hdesc : ReviewAgent.pyLower (ReviewAgent.pyTake 100 v₁.issue.description)
           = ReviewAgent.pyLower (ReviewAgent.pyTake 100 v₂.issue.description)) :
    ReviewAgent.issue_hash H v₁ = ReviewAgent.issue_hash H v₂ := by
  unfold ReviewAgent.issue_hash ReviewAgent.issueKey
  rw [hfp, hty, hdesc]

/-- Witness for C1: two concrete issues that differ in `line_start` and
`line_end` but agree on path, kind and description get the same
fingerprint. -/
theorem c1_issue_hash_ignores_line_numbers_witness :
    ReviewAgent.issue_hash id
      { issue := { file_path := "app/db.py", line_start := 10, line_end := 12,
                   issue_type := "security", severity := "high",
                   description := "SQL injection via f-string",
                   code_snippet := "query = f\"...\"" },
        is_valid := true }
    = ReviewAgent.issue_hash id
      { issue := { file_path := "app/db.py", line_start := 99, line_end := 104,
                   issue_type := "security", severity := "high",
                   description := "SQL injection via f-string",
                   code_snippet := "query = ..." },
        is_valid := false } :=
  c1_issue_hash_ignores_line_numbers id _ _ rfl rfl rfl

/-- Counterexample to claim C9: on a diff consisting of a file header
followed only by a binary-file marker, `parse_pr_diff` does not return the
empty sequence — it returns one `FileDiff` with an empty hunk list. -/
theorem c9_counterexample_binary_marker :
    ReviewAgent.parse_pr_diff
        "diff --git a/img.png b/img.png\nBinary files a/img.png and b/img.png differ"
      = [{ old_path := some "img.png", new_path := "img.png", hunks := [] }] ∧
    ReviewAgent.parse_pr_diff
        "diff --git a/img.png b/img.png\nBinary files a/img.png and b/img.png differ"
      ≠ [] := by
  refine ⟨by decide, by decide⟩

/-- Claim C9 (amended): `parse_pr_diff` applied to an empty or
whitespace-only string returns the empty sequence of FileDiffs; applied to a
diff consisting of a file header followed only by a binary-file marker it
returns a single `FileDiff` with an empty hunk sequence (the embedding is a
total function, so the parser never raises). -/
theorem c9_parse_pr_diff_empty_and_binary :
    (∀ s : String, ReviewAgent.pyStripEmpty s = true → ReviewAgent.parse_pr_diff s = []) ∧
    ReviewAgent.parse_pr_diff
        "diff --git a/img.png b/img.png\nBinary files a/img.png and b/img.png differ"
      = [{ old_path := some "img.png", new_path := "img.png", hunks := [] }] := by
  constructor
  · intro s h
    simp [ReviewAgent.parse_pr_diff, h]
  · decide

/-- Witness for C9: the whitespace-only hypothesis discharged at a concrete
input. -/
theorem c9_parse_pr_diff_empty_and_binary_witness :
    ReviewAgent.parse_pr_diff "  \n\t " = [] :=
  c9_parse_pr_diff_empty_and_binary.1 "  \n\t " (by decide)

/-- Claim C4: `validate_issues`, in parallel as well as sequential mode,
returns a list of the same length as its input whose i-th element wraps the
i-th input issue, and an issue whose validation session raises contributes
`is_valid = false`, `confidence = 0.0`,
`evidence = ["Validation failed: <error>"]` instead of failing the batch. -/
theorem c4_validate_issues_order_and_isolation
    (outcomes : Nat → ReviewAgent.SessionOutcome)
    (issues : List ReviewAgent.PotentialIssue) (parallel : Bool)
    (i : Nat) (h : i < issues.length) :
    (ReviewAgent.validate_issues outcomes issues parallel).length = issues.length ∧
    ((ReviewAgent.validate_issues outcomes issues parallel)[i]?).map (·.issue)
      = issues[i]? ∧
    ∀ e, outcomes i = .error e →
      (ReviewAgent.validate_issues outcomes issues parallel)[i]?
        = some { issue := issues.get ⟨i, h⟩, is_valid := false,
                 evidence := ["Validation failed: " ++ e], confidence := 0 } := by
  rw [validate_issues_eq_map]
  refine ⟨by simp, ?_, ?_⟩
  · rw [List.getElem?_map, List.getElem?_enum]
    cases hx : issues[i]? with
    | none => rfl
    | some x => exact congrArg some (validateStep_issue outcomes (i, x))
  · intro e he
    rw [List.getElem?_map, List.getElem?_enum, List.getElem?_eq_getElem h]
    show some (ReviewAgent.validateStep outcomes (i, issues.get ⟨i, h⟩)) = _
    unfold ReviewAgent.validateStep
    rw [he]

/-- Witness for C4: the bound hypothesis discharged at a concrete input with
one raising session. -/
theorem c4_validate_issues_order_and_isolation_witness :
    ((ReviewAgent.validate_issues
        (fun _ => .error "boom")
        [{ file_path := "a.py", line_start := 1, line_end := 1,
           issue_type := "bug", severity := "high",
           description := "d", code_snippet := "c" }] true)[0]?).map (·.issue)
      = [({ file_path := "a.py", line_start := 1, line_end := 1,
            issue_type := "bug", severity := "high",
            description := "d", code_snippet := "c" } :
            ReviewAgent.PotentialIssue)][0]? :=
  (c4_validate_issues_order_and_isolation (fun _ => .error "boom") _ true 0
    (by decide)).2.1

/-- Claim C5: a Stage-2 session that ends with no verdict stored yields a
`ValidatedIssue` with `is_valid = false`, `confidence = 0.0` and evidence
exactly `["Validation inconclusive"]`, wrapping the input issue unchanged. -/
theorem c5_validate_single_issue_no_verdict
    (issue : ReviewAgent.PotentialIssue) :
    ReviewAgent.validate_single_issue issue []
      = { issue := issue, is_valid := false,
          evidence := ["Validation inconclusive"],
          library_reference := none, mitigation := none, confidence := 0 } :=
  rfl

/-- Counterexample to claim C8: with the default rules tightened to
`max_medium_issues = 0` and one valid medium issue, the only failing
condition is `medium_issues_limit`; the decision is not approved, yet
`blocking_issues` is empty — `_make_decision` builds no blocking phrase for
`medium_issues_limit`. -/
theorem c8_counterexample_medium_limit :
    (ReviewAgent._make_decision { max_medium_issues := 0 }
      (ReviewAgent._check_conditions { max_medium_issues := 0 }
        { total_coverage := 85, new_code_coverage := 92, tests_passed := 10 }
        [{ issue := { file_path := "m.py", line_start := 1, line_end := 1,
                      issue_type := "best_practice", severity := "medium",
                      description := "d", code_snippet := "c" },
           is_valid := true }])
      { total_coverage := 85, new_code_coverage := 92, tests_passed := 10 }
      0).approved = false ∧
    ("medium_issues_limit", false) ∈
      (ReviewAgent._make_decision { max_medium_issues := 0 }
        (ReviewAgent._check_conditions { max_medium_issues := 0 }
          { total_coverage := 85, new_code_coverage := 92, tests_passed := 10 }
          [{ issue := { file_path := "m.py", line_start := 1, line_end := 1,
                        issue_type := "best_practice", severity := "medium",
                        description := "d", code_snippet := "c" },
             is_valid := true }])
        { total_coverage := 85, new_code_coverage := 92, tests_passed := 10 }
        0).conditions_met ∧
    (ReviewAgent._make_decision { max_medium_issues := 0 }
      (ReviewAgent._check_conditions { max_medium_issues := 0 }
        { total_coverage := 85, new_code_coverage := 92, tests_passed := 10 }
        [{ issue := { file_path := "m.py", line_start := 1, line_end := 1,
                      issue_type := "best_practice", severity := "medium",
                      description := "d", code_snippet := "c" },
           is_valid := true }])
      { total_coverage := 85, new_code_coverage := 92, tests_passed := 10 }
      0).blocking_issues = [] := by
  refine ⟨by decide, by decide, by decide⟩

/-- Claim C8 (amended): the decision's `approved` is the conjunction of all
six condition booleans, and a failing `all_tests_pass`,
`min_total_coverage`, `min_new_code_coverage`, `no_critical_issues` or
`no_high_issues` each contributes its human-readable phrase to
`blocking_issues`; a failing `medium_issues_limit` contributes no phrase. -/
theorem c8_make_decision_conditions
    (rules : ReviewAgent.MergeRules) (coverage : ReviewAgent.CoverageResult)
    (issues : List ReviewAgent.ValidatedIssue) (n : Nat) :
    ((ReviewAgent._make_decision rules
        (ReviewAgent._check_conditions rules coverage issues) coverage n).approved
      = (coverage.all_tests_passed &&
         decide (coverage.total_coverage ≥ rules.min_total_coverage) &&
         decide (coverage.new_code_coverage ≥ rules.min_new_code_coverage) &&
         decide ((issues.filter
           (fun i => ReviewAgent.validWithSeverity i "critical")).length = 0) &&
         (if rules.block_on_high then
            decide ((issues.filter
              (fun i => ReviewAgent.validWithSeverity i "high")).length = 0)
          else true) &&
         decide (((issues.filter
           (fun i => ReviewAgent.validWithSeverity i "medium")).length : Int)
             ≤ rules.max_medium_issues))) ∧
    (∀ conditions : List (String × Bool),
      (ReviewAgent.condGet conditions "all_tests_pass" = false →
        (ReviewAgent.natToStr coverage.tests_failed ++ " tests failed") ∈
          (ReviewAgent._make_decision rules conditions coverage n).blocking_issues) ∧
      (ReviewAgent.condGet conditions "min_total_coverage" = false →
        ("Total coverage " ++ ReviewAgent.fmt1 coverage.total_coverage ++ "% < " ++
         ReviewAgent.pyFloatStr rules.min_total_coverage ++ "%") ∈
          (ReviewAgent._make_decision rules conditions coverage n).blocking_issues) ∧
      (ReviewAgent.condGet conditions "min_new_code_coverage" = false →
        ("New code coverage " ++ ReviewAgent.fmt1 coverage.new_code_coverage ++ "% < " ++
         ReviewAgent.pyFloatStr rules.min_new_code_coverage ++ "%") ∈
          (ReviewAgent._make_decision rules conditions coverage n).blocking_issues) ∧
      (ReviewAgent.condGet conditions "no_critical_issues" = false →
        "Critical issues found" ∈
          (ReviewAgent._make_decision rules conditions coverage n).blocking_issues) ∧
      (ReviewAgent.condGet conditions "no_high_issues" = false →
        "High severity issues found" ∈
          (ReviewAgent._make_decision rules conditions coverage n).blocking_issues)) := by
  constructor
  · show (ReviewAgent._check_conditions rules coverage issues).all (·.2) = _
    simp only [ReviewAgent._check_conditions, List.all_cons, List.all_nil,
      Bool.and_true, Bool.and_assoc]
  · intro conditions
    refine ⟨fun h => ?_, fun h => ?_, fun h => ?_, fun h => ?_, fun h => ?_⟩ <;>
      · show _ ∈ (ReviewAgent._make_decision rules conditions coverage n).blocking_issues
        unfold ReviewAgent._make_decision
        simp only [h, if_pos, List.mem_append, List.mem_singleton]
        simp

/-- Witness for C8: a coverage result failing all five phrase-bearing
conditions; each hypothesis of the amended theorem discharged concretely. -/
theorem c8_make_decision_conditions_witness :
    (ReviewAgent.natToStr 3 ++ " tests failed") ∈
      (ReviewAgent._make_decision {}
        (ReviewAgent._check_conditions {}
          { total_coverage := 10, new_code_coverage := 10, tests_failed := 3 }
          [{ issue := { file_path := "m.py", line_start := 1, line_end := 1,
                        issue_type := "bug", severity := "critical",
                        description := "d", code_snippet := "c" },
             is_valid := true },
           { issue := { file_path := "m.py", line_start := 2, line_end := 2,
                        issue_type := "bug", severity := "high",
                        description := "d", code_snippet := "c" },
             is_valid := true }])
        { total_coverage := 10, new_code_coverage := 10, tests_failed := 3 }
        0).blocking_issues ∧
    "Critical issues found" ∈
      (ReviewAgent._make_decision {}
        (ReviewAgent._check_conditions {}
          { total_coverage := 10, new_code_coverage := 10, tests_failed := 3 }
          [{ issue := { file_path := "m.py", line_start := 1, line_end := 1,
                        issue_type := "bug", severity := "critical",
                        description := "d", code_snippet := "c" },
             is_valid := true },
           { issue := { file_path := "m.py", line_start := 2, line_end := 2,
                        issue_type := "bug", severity := "high",
                        description := "d", code_snippet := "c" },
             is_valid := true }])
        { total_coverage := 10, new_code_coverage := 10, tests_failed := 3 }
        0).blocking_issues :=
  ⟨((c8_make_decision_conditions {}
      { total_coverage := 10, new_code_coverage := 10, tests_failed := 3 }
      [{ issue := { file_path := "m.py", line_start := 1, line_end := 1,
                    issue_type := "bug", severity := "critical",
                    description := "d", code_snippet := "c" },
         is_valid := true },
       { issue := { file_path := "m.py", line_start := 2, line_end := 2,
                    issue_type := "bug", severity := "high",
                    description := "d", code_snippet := "c" },
         is_valid := true }] 0).2 _).1 (by decide),
   (((((c8_make_decision_conditions {}
      { total_coverage := 10, new_code_coverage := 10, tests_failed := 3 }
      [{ issue := { file_path := "m.py", line_start := 1, line_end := 1,
                    issue_type := "bug", severity := "critical",
                    description := "d", code_snippet := "c" },
         is_valid := true },
       { issue := { file_path := "m.py", line_start := 2, line_end := 2,
                    issue_type := "bug", severity := "high",
                    description := "d", code_snippet := "c" },
         is_valid := true }] 0).2 _).2).2).2).1 (by decide)⟩

theorem covWalk_skip (changed_files : List String)
    (files : List (String × ReviewAgent.CovFileData))
    (h : ∀ e ∈ files, ReviewAgent.fileMatchesChanged e.1.toList changed_files = false)
    (acc : Nat × Nat × List (String × List Nat)) :
    files.foldl (ReviewAgent.covWalkStep changed_files) acc = acc := by
  induction files generalizing acc with
  | nil => rfl
  | cons e es ih =>
    obtain ⟨nc, nt, unc⟩ := acc
    obtain ⟨fp, fd⟩ := e
    have he : ReviewAgent.fileMatchesChanged fp.data changed_files = false :=
      h (fp, fd) (by simp)
    simp only [List.foldl_cons]
    rw [show ReviewAgent.covWalkStep changed_files (nc, nt, unc) (fp, fd) = (nc, nt, unc) by
      simp [ReviewAgent.covWalkStep, he]]
    exact ih (fun x hx => h x (by simp [hx])) (nc, nt, unc)

/-- Claim C10: when no file entry of the coverage report matches any changed
file — in particular when the changed-files list is empty, since nothing
matches an empty list — `new_code_coverage` is `0.0` rather than `100.0`,
and the `min_new_code_coverage` condition evaluates to false for any
positive threshold. -/
theorem c10_new_code_coverage_empty_match
    (output : String) (changed_files : List String) (c : ReviewAgent.CovReport)
    (rules : ReviewAgent.MergeRules) (issues : List ReviewAgent.ValidatedIssue)
    (hmatch : ∀ e ∈ c.files,
      ReviewAgent.fileMatchesChanged e.1.toList changed_files = false) :
    (ReviewAgent._parse_pytest_output output changed_files (some c)).new_code_coverage
      = 0 ∧
    (0 < rules.min_new_code_coverage →
      ("min_new_code_coverage", false) ∈
        ReviewAgent._check_conditions rules
          (ReviewAgent._parse_pytest_output output changed_files (some c)) issues) ∧
    (∀ fp : List Char, ReviewAgent.fileMatchesChanged fp [] = false) := by
  have hcov :
      (ReviewAgent._parse_pytest_output output changed_files (some c)).new_code_coverage
        = 0 := by
    rcases hsc : (ReviewAgent.splitChar '\n' output.toList).foldl
        ReviewAgent.scanLine (0, 0, 0, 0) with ⟨p, f, s, t⟩
    simp [ReviewAgent._parse_pytest_output, hsc, covWalk_skip changed_files c.files hmatch]
  refine ⟨hcov, fun hpos => ?_, fun fp => rfl⟩
  have hdec : decide
      ((ReviewAgent._parse_pytest_output output changed_files (some c)).new_code_coverage
        ≥ rules.min_new_code_coverage) = false := by
    rw [hcov]
    exact decide_eq_false (not_le.mpr hpos)
  have hmem : ("min_new_code_coverage",
      decide ((ReviewAgent._parse_pytest_output output changed_files
          (some c)).new_code_coverage ≥ rules.min_new_code_coverage)) ∈
      ReviewAgent._check_conditions rules
        (ReviewAgent._parse_pytest_output output changed_files (some c)) issues := by
    unfold ReviewAgent._check_conditions
    exact List.mem_cons_of_mem _ (List.mem_cons_of_mem _ (List.mem_cons_self _ _))
  rwa [hdec] at hmem

theorem fixPhase_iteration (H : String → String) (cfg : ReviewAgent.LoopConfig)
    (it : Nat) (env : ReviewAgent.IterEnv) :
    ∀ st status valid,
      ((ReviewAgent.fixPhase H cfg it env st status valid).2.1).iteration
        = status.iteration := by
  intro st status valid
  unfold ReviewAgent.fixPhase
  split
  · cases hpc : env.postComments <;> simp only [hpc]
  · rcases hfb : ReviewAgent._fix_issues_batch H valid st.attempted env.fixSessions
      with ⟨results, att⟩
    simp only [hfb]
    split
    · rfl
    · split <;> split <;> rfl

theorem iterationStep_iteration (H : String → String) (cfg : ReviewAgent.LoopConfig)
    (it : Nat) (env : ReviewAgent.IterEnv) (st : ReviewAgent.LoopState) :
    ((ReviewAgent.iterationStep H cfg it env st).2.1).iteration = it := by
  unfold ReviewAgent.iterationStep
  repeat' split
  all_goals try rfl
  all_goals dsimp only
  all_goals repeat' split
  all_goals try rfl
  all_goals rw [fixPhase_iteration]

theorem runIterations_map_iteration (H : String → String)
    (cfg : ReviewAgent.LoopConfig) (envs : Nat → ReviewAgent.IterEnv) :
    ∀ (r iteration : Nat) (st : ReviewAgent.LoopState) (acc : List ReviewAgent.LoopStatus),
      ∃ k ≤ r,
        ((ReviewAgent.runIterations H cfg envs iteration r st acc).1).map (·.iteration)
          = acc.map (·.iteration) ++ List.range' iteration k := by
  intro r
  induction r with
  | zero =>
    intro iteration st acc
    exact ⟨0, le_refl 0, by simp [ReviewAgent.runIterations]⟩
  | succ r ih =>
    intro iteration st acc
    unfold ReviewAgent.runIterations
    rcases hstep : ReviewAgent.iterationStep H cfg iteration (envs iteration) st
      with ⟨st₂, status, brk⟩
    have hit : status.iteration = iteration := by
      have h := iterationStep_iteration H cfg iteration (envs iteration) st
      rw [hstep] at h
      exact h
    simp only [hstep]
    cases brk with
    | true =>
      refine ⟨1, by omega, ?_⟩
      simp [hit]
    | false =>
      obtain ⟨k, hk, hmap⟩ := ih (iteration + 1) st₂ (acc ++ [status])
      refine ⟨k + 1, by omega, ?_⟩
      simp only [Bool.false_eq_true, if_false]
      rw [hmap]
      simp [hit, List.range'_succ]

theorem mapLast_iteration (f : ReviewAgent.LoopStatus → ReviewAgent.LoopStatus)
    (hf : ∀ s, (f s).iteration = s.iteration) (l : List ReviewAgent.LoopStatus) :
    (ReviewAgent.mapLast f l).map (·.iteration) = l.map (·.iteration) ∧
    (ReviewAgent.mapLast f l).length = l.length := by
  induction l using List.reverseRecOn with
  | nil => exact ⟨rfl, rfl⟩
  | append_singleton xs x ih =>
    unfold ReviewAgent.mapLast
    rw [List.getLast?_concat]
    simp [hf]

/-- Claim C3: for every configuration and every behaviour of the external
collaborators, `run_feedback_loop` terminates (it is a total function of its
environment) and returns at most `max_iterations` status records, the j-th
record carrying iteration number `j + 1` — so each iteration contributes at
most one record. -/
theorem c3_feedback_loop_bounded (H : String → String)
    (cfg : ReviewAgent.LoopConfig) (env : ReviewAgent.LoopEnv) :
    (ReviewAgent.run_feedback_loop H cfg env).statuses.length ≤ cfg.max_iterations ∧
    (ReviewAgent.run_feedback_loop H cfg env).statuses.map (·.iteration)
      = List.range' 1 ((ReviewAgent.run_feedback_loop H cfg env).statuses.length) := by
  obtain ⟨k, hk, hmap⟩ :=
    runIterations_map_iteration H cfg env.iter cfg.max_iterations 1 ⟨∅, ∅, []⟩ []
  rcases hrun : ReviewAgent.runIterations H cfg env.iter 1 cfg.max_iterations ⟨∅, ∅, []⟩ []
    with ⟨statuses, st⟩
  rw [hrun] at hmap
  simp only [List.map_nil, List.nil_append] at hmap
  have hpatch := mapLast_iteration
    (fun s => if s.result = none then { s with result := some .max_iterations } else s)
    (fun s => by by_cases h : s.result = none <;> simp [h]) statuses
  have hfinal :
      (ReviewAgent.run_feedback_loop H cfg env).statuses.map (·.iteration)
        = statuses.map (·.iteration) ∧
      (ReviewAgent.run_feedback_loop H cfg env).statuses.length = statuses.length := by
    unfold ReviewAgent.run_feedback_loop
    rw [hrun]
    simp only [ReviewAgent.patchMaxIterations]
    split
    · have hmerge := mapLast_iteration (fun s => { s with result := some .merged })
        (fun s => rfl)
        (ReviewAgent.mapLast
          (fun s => if s.result = none then { s with result := some .max_iterations } else s)
          statuses)
      exact ⟨hmerge.1.trans hpatch.1, hmerge.2.trans hpatch.2⟩
    · exact ⟨hpatch.1, hpatch.2⟩
  have hlen : (ReviewAgent.run_feedback_loop H cfg env).statuses.length = k := by
    have hcongr := congrArg List.length hmap
    simp only [List.length_map, List.length_range'] at hcongr
    rw [hfinal.2, hcongr]
  refine ⟨by rw [hlen]; exact hk, ?_⟩
  rw [hfinal.1, hmap, hlen]

theorem fixBatchGo_att_mono (H : String → String) (sessions : Nat → ReviewAgent.FixSession) :
    ∀ (l : List ReviewAgent.ValidatedIssue) (i : Nat) (att : Finset String),
      att ⊆ (ReviewAgent.fixBatchGo H sessions i l att).2 := by
  intro l
  induction l with
  | nil => intro i att; simp [ReviewAgent.fixBatchGo]
  | cons issue rest ih =>
    intro i att
    rcases hgo : ReviewAgent.fixBatchGo H sessions (i + 1) rest
        (insert (ReviewAgent.issue_hash H issue) att) with ⟨results, att₂⟩
    have h2 : (ReviewAgent.fixBatchGo H sessions i (issue :: rest) att).2 = att₂ := by
      unfold ReviewAgent.fixBatchGo
      dsimp only
      rw [hgo]
    rw [h2]
    refine (Finset.subset_insert (ReviewAgent.issue_hash H issue) att).trans ?_
    have hrest := ih (i + 1) (insert (ReviewAgent.issue_hash H issue) att)
    rwa [hgo] at hrest

theorem fixBatchGo_spec (H : String → String) (sessions : Nat → ReviewAgent.FixSession) :
    ∀ (l : List ReviewAgent.ValidatedIssue) (i : Nat) (att : Finset String)
      (j : Nat) (h : j < l.length),
      ((ReviewAgent.fixBatchGo H sessions i l att).1)[j]?
          = some (ReviewAgent.fixResultFor H (sessions (i + j)) (l.get ⟨j, h⟩)) ∧
      ReviewAgent.issue_hash H (l.get ⟨j, h⟩) ∈ (ReviewAgent.fixBatchGo H sessions i l att).2 := by
  intro l
  induction l with
  | nil => intro i att j h; exact absurd h (by simp)
  | cons issue rest ih =>
    intro i att j h
    rcases hgo : ReviewAgent.fixBatchGo H sessions (i + 1) rest
        (insert (ReviewAgent.issue_hash H issue) att) with ⟨results, att₂⟩
    have hstep : ReviewAgent.fixBatchGo H sessions i (issue :: rest) att
        = (ReviewAgent.fixResultFor H (sessions i) issue :: results, att₂) := by
      unfold ReviewAgent.fixBatchGo
      dsimp only
      rw [hgo]
    rw [hstep]
    cases j with
    | zero =>
      refine ⟨by simp, ?_⟩
      have hmono := fixBatchGo_att_mono H sessions rest (i + 1)
        (insert (ReviewAgent.issue_hash H issue) att)
      rw [hgo] at hmono
      exact hmono (Finset.mem_insert_self _ _)
    | succ j =>
      have hrest := ih (i + 1) (insert (ReviewAgent.issue_hash H issue) att) j
        (Nat.lt_of_succ_lt_succ h)
      rw [hgo] at hrest
      refine ⟨?_, hrest.2⟩
      have : i + 1 + j = i + (j + 1) := by omega
      simpa [this] using hrest.1

/-- Counterexample to claim C2: a one-iteration run in which two issues
survive, the first fix changes its file and the second fix session leaves
its file byte-identical (`envC2`).  The unfixable set at the end of the run
is empty — the fix-ineffective issue's fingerprint was not added to the
unfixable set during the iteration (it is only promoted on reappearance in
a later iteration, or when the iteration fixed nothing at all). -/
theorem c2_counterexample_fix_ineffective :
    (ReviewAgent.run_feedback_loop id ReviewAgent.cfgC2 ReviewAgent.envC2).unfixable = ∅ ∧
    (ReviewAgent.run_feedback_loop id ReviewAgent.cfgC2 ReviewAgent.envC2).statuses.map
      (fun s => (s.issues_found, s.issues_fixed, s.issues_skipped)) = [(2, 1, 0)] ∧
    ((ReviewAgent.envC2.iter 1).fixSessions 1
      = ReviewAgent.FixSession.ran true "same" "same") ∧
    ReviewAgent.issue_hash id ReviewAgent.valC2b ∈
      (ReviewAgent.run_feedback_loop id ReviewAgent.cfgC2 ReviewAgent.envC2).attempted := by
  refine ⟨by decide, by decide, by decide, by decide⟩

/-- Claim C2 (amended): in the fix batch of an iteration, a surviving issue
whose fix session leaves the target file's content unchanged gets a
`FixResult` with `changes_made = false`, so it is excluded from the
successful-fix filter and not counted among the fixes of that iteration,
and its fingerprint is added to the `attempted` set (not the unfixable set;
promotion to unfixable happens only when the whole iteration fixes nothing,
or when the issue reappears in a later iteration). -/
theorem c2_fix_ineffective_goes_to_attempted
    (H : String → String) (issues : List ReviewAgent.ValidatedIssue)
    (attempted : Finset String) (sessions : Nat → ReviewAgent.FixSession)
    (i : Nat) (h : i < issues.length) (ok : Bool) (content : String)
    (hsession : sessions i = .ran ok content content) :
    ∃ r : ReviewAgent.FixResult,
      ((ReviewAgent._fix_issues_batch H issues attempted sessions).1)[i]? = some r ∧
      r.changes_made = false ∧
      (r.success && r.changes_made) = false ∧
      r ∉ ((ReviewAgent._fix_issues_batch H issues attempted sessions).1).filter
            (fun r => r.success && r.changes_made) ∧
      ReviewAgent.issue_hash H (issues.get ⟨i, h⟩) ∈
        (ReviewAgent._fix_issues_batch H issues attempted sessions).2 := by
  obtain ⟨hget, hmem⟩ := fixBatchGo_spec H sessions issues 0 attempted i h
  have hzero : (0 : Nat) + i = i := by omega
  rw [hzero] at hget
  refine ⟨ReviewAgent.fixResultFor H (sessions i) (issues.get ⟨i, h⟩), hget, ?_, ?_, ?_, hmem⟩
  · rw [hsession]
    simp [ReviewAgent.fixResultFor]
  · rw [hsession]
    simp [ReviewAgent.fixResultFor]
  · intro hmemf
    have hp := (List.mem_filter.mp hmemf).2
    rw [hsession] at hp
    simp [ReviewAgent.fixResultFor] at hp

/-- Witness for C2: the amended theorem applied to the concrete fix batch of
`envC2`, at the issue whose session returned the file unchanged. -/
theorem c2_fix_ineffective_goes_to_attempted_witness :
    ∃ r : ReviewAgent.FixResult,
      ((ReviewAgent._fix_issues_batch id [ReviewAgent.valC2a, ReviewAgent.valC2b] ∅
          (ReviewAgent.envC2.iter 1).fixSessions).1)[1]? = some r ∧
      r.changes_made = false ∧
      (r.success && r.changes_made) = false ∧
      r ∉ ((ReviewAgent._fix_issues_batch id [ReviewAgent.valC2a, ReviewAgent.valC2b] ∅
              (ReviewAgent.envC2.iter 1).fixSessions).1).filter
            (fun r => r.success && r.changes_made) ∧
      ReviewAgent.issue_hash id ([ReviewAgent.valC2a, ReviewAgent.valC2b].get ⟨1, by decide⟩) ∈
        (ReviewAgent._fix_issues_batch id [ReviewAgent.valC2a, ReviewAgent.valC2b] ∅
            (ReviewAgent.envC2.iter 1).fixSessions).2 :=
  c2_fix_ineffective_goes_to_attempted id [ReviewAgent.valC2a, ReviewAgent.valC2b] ∅
    (ReviewAgent.envC2.iter 1).fixSessions 1 (by decide) true "same" (by decide)

/-- Witness for C10: a report whose only file entry matches nothing in the
changed list, with the default 90% new-code threshold. -/
theorem c10_new_code_coverage_empty_match_witness :
    (ReviewAgent._parse_pytest_output "" ["src/app.py"]
        (some { files := [("tests/test_x.py",
                           { executed_lines := [1, 2], missing_lines := [] })],
                totals_percent_covered := some 50 })).new_code_coverage = 0 ∧
    ("min_new_code_coverage", false) ∈
      ReviewAgent._check_conditions {}
        (ReviewAgent._parse_pytest_output "" ["src/app.py"]
          (some { files := [("tests/test_x.py",
                             { executed_lines := [1, 2], missing_lines := [] })],
                  totals_percent_covered := some 50 })) [] :=
  ⟨(c10_new_code_coverage_empty_match "" ["src/app.py"] _ {} [] (by decide)).1,
   (c10_new_code_coverage_empty_match "" ["src/app.py"] _ {} [] (by decide)).2.1
     (by decide)⟩

namespace KahnProof

open ReviewAgent

theorem insertSortedBy_perm (key : Nat → Nat) (n : Nat) (l : List Nat) :
    (insertSortedBy key n l).Perm (n :: l) := by
  induction l with
  | nil => exact List.Perm.refl _
  | cons x xs ih =>
    unfold insertSortedBy
    split
    · exact List.Perm.refl _
    · exact (List.Perm.cons x ih).trans (List.Perm.swap n x xs)

theorem sortBy_perm (key : Nat → Nat) (l : List Nat) : (sortBy key l).Perm l := by
  induction l with
  | nil => exact List.Perm.refl _
  | cons x xs ih =>
    exact (insertSortedBy_perm key x (sortBy key xs)).trans (ih.cons x)

theorem sortNat_perm (l : List Nat) : (sortNat l).Perm l := sortBy_perm id l

theorem mem_sortNat {x : Nat} {l : List Nat} : x ∈ sortNat l ↔ x ∈ l :=
  (sortNat_perm l).mem_iff

theorem nodup_sortNat {l : List Nat} (h : l.Nodup) : (sortNat l).Nodup :=
  ((sortNat_perm l).nodup_iff).mpr h

theorem kahnFold_spec (ds : List Nat) (hnd : ds.Nodup) (f : Nat → Int) (q : List Nat) :
    (∀ x, (ds.foldl kahnDecr (f, q)).1 x = if x ∈ ds then f x - 1 else f x) ∧
    (ds.foldl kahnDecr (f, q)).2 = q ++ ds.filter (fun d => f d - 1 = 0) := by
  induction ds generalizing f q with
  | nil => simp
  | cons d ds ih =>
    have hd : d ∉ ds := (List.nodup_cons.mp hnd).1
    have hnd2 : ds.Nodup := (List.nodup_cons.mp hnd).2
    have hstep : kahnDecr (f, q) d
        = (Function.update f d (f d - 1), if f d - 1 = 0 then q ++ [d] else q) := rfl
    rw [List.foldl_cons, hstep]
    obtain ⟨ih1, ih2⟩ := ih hnd2 (Function.update f d (f d - 1))
      (if f d - 1 = 0 then q ++ [d] else q)
    constructor
    · intro x
      rw [ih1 x]
      by_cases hx : x ∈ ds
      · have hxd : x ≠ d := fun he => hd (he ▸ hx)
        simp [hx, hxd, Function.update_apply]
      · by_cases hxd : x = d
        · subst hxd
          simp [hx, Function.update_same]
        · simp [hx, hxd, Function.update_apply]
    · rw [ih2]
      have hfilter : ds.filter (fun x => Function.update f d (f d - 1) x - 1 = 0)
          = ds.filter (fun x => f x - 1 = 0) := by
        apply List.filter_congr
        intro x hx
        have hxd : x ≠ d := fun he => hd (he ▸ hx)
        simp [Function.update_apply, hxd]
      rw [hfilter]
      by_cases h0 : f d - 1 = 0 <;> simp [h0]

theorem prDeps_fold_skip (prs : List ReviewAgent.PRNode) (x : Nat) :
    ∀ (l : List ReviewAgent.PRNode) (acc : Finset Nat),
      (∀ pr ∈ l, pr.pr_number ≠ x) →
      l.foldl (fun acc pr =>
        if pr.pr_number = x then
          let acc := match prByBranch prs pr.base with
            | some dep => insert dep acc
            | none => acc
          pr.depends_on.foldl (fun a d => insert d a) acc
        else acc) acc = acc := by
  intro l
  induction l with
  | nil => intro acc h; rfl
  | cons pr rest ih =>
    intro acc h
    rw [List.foldl_cons]
    have hpr : pr.pr_number ≠ x := h pr (by simp)
    rw [if_neg hpr]
    exact ih acc (fun q hq => h q (by simp [hq]))

theorem prDeps_source {prs : List ReviewAgent.PRNode} {x y : Nat}
    (h : y ∈ prDeps prs x) : x ∈ prNumbers prs := by
  by_contra hx
  have hall : ∀ pr ∈ prs, pr.pr_number ≠ x := by
    intro pr hpr he
    exact hx (by simp [prNumbers, prNumbersList]; exact ⟨pr, hpr, he⟩)
  have : prDeps prs x = ∅ := prDeps_fold_skip prs x prs ∅ hall
  rw [this] at h
  exact absurd h (Finset.not_mem_empty y)

theorem mem_prNumbers_of_inDeps {prs : List ReviewAgent.PRNode} {x y : Nat}
    (h : y ∈ inDeps prs x) : y ∈ prNumbers prs :=
  (Finset.mem_filter.mp h).2

theorem kahnInit_inv (prs : List ReviewAgent.PRNode) : KahnInv prs (kahnInit prs) := by
  constructor
  · intro x hx
    exact absurd hx (List.not_mem_nil x)
  · intro x hx
    rw [kahnInit] at hx
    simp only [mem_sortNat, List.mem_filter, List.mem_dedup] at hx
    simp [prNumbers, hx.1]
  · exact List.nodup_nil
  · exact nodup_sortNat ((List.nodup_dedup _).filter _)
  · intro x hx
    simp [kahnInit]
  · intro x hx
    rw [kahnInit]
    simp only [mem_sortNat, List.mem_filter, List.mem_dedup]
    constructor
    · intro hq
      exact ⟨List.not_mem_nil x, by simpa using hq.2⟩
    · intro hq
      refine ⟨?_, by simpa using hq.2⟩
      simpa [prNumbers, prNumbersList] using hx
  · intro j hj
    exact absurd hj (by simp [kahnInit])

theorem mem_revDepsList {prs : List ReviewAgent.PRNode} {current x : Nat}
    (hc : current ∈ prNumbers prs) :
    x ∈ revDepsList prs current ↔ (x ∈ prNumbers prs ∧ current ∈ inDeps prs x) := by
  unfold revDepsList
  rw [mem_sortNat, List.mem_filter, List.mem_dedup]
  unfold inDeps
  constructor
  · intro ⟨h1, h2⟩
    have hx : x ∈ prNumbers prs := by simpa [prNumbers, List.mem_toFinset] using h1
    exact ⟨hx, Finset.mem_filter.mpr ⟨by simpa using h2, hc⟩⟩
  · intro ⟨hx, hcd⟩
    refine ⟨by simpa [prNumbers, List.mem_toFinset] using hx, ?_⟩
    simpa using (Finset.mem_filter.mp hcd).1

theorem filter_result_append {prs : List ReviewAgent.PRNode} {R : List Nat}
    {current : Nat} (x : Nat) :
    (inDeps prs x).filter (· ∉ R ++ [current])
      = ((inDeps prs x).filter (· ∉ R)).erase current := by
  ext y
  simp only [Finset.mem_filter, Finset.mem_erase, List.mem_append, List.mem_singleton]
  constructor
  · intro ⟨hy, hny⟩
    push_neg at hny
    exact ⟨hny.2, hy, hny.1⟩
  · intro ⟨hne, hy, hnr⟩
    refine ⟨hy, ?_⟩
    push_neg
    exact ⟨hnr, hne⟩

theorem kahnStep_spec (prs : List ReviewAgent.PRNode) (s : KahnState)
    (hinv : KahnInv prs s) (hne : s.queue ≠ []) :
    KahnInv prs (kahnStep prs s) ∧
    ∃ current, current ∈ s.queue ∧ (kahnStep prs s).result = s.result ++ [current] := by
  rcases hsq : sortNat s.queue with _ | ⟨current, rest⟩
  · have hp := sortNat_perm s.queue
    rw [hsq] at hp
    exact absurd hp.symm.eq_nil hne
  · have hperm : (current :: rest).Perm s.queue := by
      have hp := sortNat_perm s.queue
      rwa [hsq] at hp
    have hqnodup : (current :: rest).Nodup := (hperm.nodup_iff).mpr hinv.queueNodup
    have hcur_mem : current ∈ s.queue := hperm.mem_iff.mp (by simp)
    have hcurS : current ∈ prNumbers prs := hinv.queueS current hcur_mem
    obtain ⟨hcurR, hcur0⟩ := (hinv.queueChar current hcurS).mp hcur_mem
    have hdeps_res : ∀ y ∈ inDeps prs current, y ∈ s.result := by
      intro y hy
      by_contra hyn
      have hcard := hinv.indegSpec current hcurS
      rw [hcur0] at hcard
      have hc0 : ((inDeps prs current).filter (· ∉ s.result)).card = 0 := by
        exact_mod_cast hcard.symm
      have hmem : y ∈ (inDeps prs current).filter (· ∉ s.result) :=
        Finset.mem_filter.mpr ⟨hy, hyn⟩
      rw [Finset.card_eq_zero] at hc0
      rw [hc0] at hmem
      exact absurd hmem (Finset.not_mem_empty y)
    have hrl_nodup : (revDepsList prs current).Nodup :=
      nodup_sortNat ((List.nodup_dedup _).filter _)
    obtain ⟨hf1, hf2⟩ := kahnFold_spec (revDepsList prs current) hrl_nodup s.indeg rest
    have hr2 : (kahnStep prs s).result = s.result ++ [current] := by
      unfold kahnStep
      rw [hsq]
    have hq2 : (kahnStep prs s).queue
        = rest ++ (revDepsList prs current).filter (fun d => s.indeg d - 1 = 0) := by
      unfold kahnStep
      rw [hsq]
      dsimp only
      rw [hf2]
    have hi2 : ∀ x, (kahnStep prs s).indeg x
        = if x ∈ revDepsList prs current then s.indeg x - 1 else s.indeg x := by
      intro x
      have : (kahnStep prs s).indeg
          = ((revDepsList prs current).foldl kahnDecr (s.indeg, rest)).1 := by
        unfold kahnStep
        rw [hsq]
      rw [this]
      exact hf1 x
    have hrest_q : ∀ x ∈ rest, x ∈ s.queue := by
      intro x hx
      exact hperm.mem_iff.mp (by simp [hx])
    have hcur_rest : current ∉ rest := (List.nodup_cons.mp hqnodup).1
    have hnewly_mem : ∀ x, x ∈ (revDepsList prs current).filter (fun d => s.indeg d - 1 = 0)
        ↔ (x ∈ revDepsList prs current ∧ s.indeg x - 1 = 0) := by
      intro x
      rw [List.mem_filter]
      simp
    have hnewly_not_res : ∀ x ∈ (revDepsList prs current).filter (fun d => s.indeg d - 1 = 0),
        x ∉ s.result ∧ x ≠ current := by
      intro x hx
      obtain ⟨hxr, hxd⟩ := (hnewly_mem x).mp hx
      have hcin : current ∈ inDeps prs x := ((mem_revDepsList hcurS).mp hxr).2
      constructor
      · intro hxres
        obtain ⟨⟨j, hj⟩, hget⟩ := List.mem_iff_get.mp hxres
        have := hinv.topo j hj
        rw [hget] at this
        have hcur_take := this current hcin
        exact hcurR (List.take_subset j s.result hcur_take)
      · intro hxc
        rw [hxc] at hcin
        exact hcurR (hdeps_res current hcin)
    refine ⟨⟨?_, ?_, ?_, ?_, ?_, ?_, ?_⟩, current, hcur_mem, hr2⟩
    · -- resS
      rw [hr2]
      intro x hx
      rcases List.mem_append.mp hx with hx | hx
      · exact hinv.resS x hx
      · rw [List.mem_singleton.mp hx]
        exact hcurS
    · -- queueS
      rw [hq2]
      intro x hx
      rcases List.mem_append.mp hx with hx | hx
      · exact hinv.queueS x (hrest_q x hx)
      · exact ((mem_revDepsList hcurS).mp ((hnewly_mem x).mp hx).1).1
    · -- resNodup
      rw [hr2]
      rw [List.nodup_append]
      refine ⟨hinv.resNodup, List.nodup_singleton current, ?_⟩
      intro x hx hx2
      rw [List.mem_singleton.mp hx2] at hx
      exact hcurR hx
    · -- queueNodup
      rw [hq2]
      rw [List.nodup_append]
      refine ⟨(List.nodup_cons.mp hqnodup).2, List.Nodup.filter _ hrl_nodup, ?_⟩
      intro x hx hx2
      have h0 : s.indeg x = 0 :=
        ((hinv.queueChar x (hinv.queueS x (hrest_q x hx))).mp (hrest_q x hx)).2
      have h1 : s.indeg x - 1 = 0 := ((hnewly_mem x).mp hx2).2
      omega
    · -- indegSpec
      intro x hx
      rw [hi2 x, hr2, filter_result_append]
      by_cases hxr : x ∈ revDepsList prs current
      · rw [if_pos hxr]
        have hcin : current ∈ inDeps prs x := ((mem_revDepsList hcurS).mp hxr).2
        have hm : current ∈ (inDeps prs x).filter (· ∉ s.result) :=
          Finset.mem_filter.mpr ⟨hcin, hcurR⟩
        rw [Finset.card_erase_of_mem hm]
        have hpos : 0 < ((inDeps prs x).filter (· ∉ s.result)).card :=
          Finset.card_pos.mpr ⟨current, hm⟩
        have hspec := hinv.indegSpec x hx
        omega
      · rw [if_neg hxr]
        have hcnot : current ∉ (inDeps prs x).filter (· ∉ s.result) := by
          intro hc
          have hcin := (Finset.mem_filter.mp hc).1
          exact hxr ((mem_revDepsList hcurS).mpr ⟨hx, hcin⟩)
        rw [Finset.erase_eq_of_not_mem hcnot]
        exact hinv.indegSpec x hx
    · -- queueChar
      intro x hx
      rw [hq2, hi2 x, hr2]
      constructor
      · intro hxq
        rcases List.mem_append.mp hxq with hxrest | hxnew
        · have hxqueue := hrest_q x hxrest
          obtain ⟨hxres, hx0⟩ := (hinv.queueChar x hx).mp hxqueue
          have hxc : x ≠ current := by
            intro he
            subst he
            exact hcur_rest hxrest
          constructor
          · intro hmem
            rcases List.mem_append.mp hmem with h | h
            · exact hxres h
            · exact hxc (List.mem_singleton.mp h)
          · have hxr : x ∉ revDepsList prs current := by
              intro hxr
              have hcin : current ∈ inDeps prs x := ((mem_revDepsList hcurS).mp hxr).2
              have hspec := hinv.indegSpec x hx
              rw [hx0] at hspec
              have hc0 : ((inDeps prs x).filter (· ∉ s.result)).card = 0 := by
                exact_mod_cast hspec.symm
              rw [Finset.card_eq_zero] at hc0
              have : current ∈ (inDeps prs x).filter (· ∉ s.result) :=
                Finset.mem_filter.mpr ⟨hcin, hcurR⟩
              rw [hc0] at this
              exact absurd this (Finset.not_mem_empty current)
            rw [if_neg hxr]
            exact hx0
        · obtain ⟨hxres, hxc⟩ := hnewly_not_res x hxnew
          obtain ⟨hxr, hxd⟩ := (hnewly_mem x).mp hxnew
          constructor
          · intro hmem
            rcases List.mem_append.mp hmem with h | h
            · exact hxres h
            · exact hxc (List.mem_singleton.mp h)
          · rw [if_pos hxr]
            exact hxd
      · intro ⟨hxR, hx0⟩
        have hxres : x ∉ s.result := fun h => hxR (List.mem_append.mpr (Or.inl h))
        have hxc : x ≠ current := fun h => hxR (List.mem_append.mpr (Or.inr (by simp [h])))
        by_cases hxr : x ∈ revDepsList prs current
        · rw [if_pos hxr] at hx0
          refine List.mem_append.mpr (Or.inr ?_)
          exact (hnewly_mem x).mpr ⟨hxr, hx0⟩
        · rw [if_neg hxr] at hx0
          have hxqueue : x ∈ s.queue := (hinv.queueChar x hx).mpr ⟨hxres, hx0⟩
          have : x ∈ current :: rest := hperm.mem_iff.mpr hxqueue
          rcases List.mem_cons.mp this with h | h
          · exact absurd h hxc
          · exact List.mem_append.mpr (Or.inl h)
    · -- topo
      rw [hr2]
      intro j hj y hy
      rcases Nat.lt_or_ge j s.result.length with hlt | hge
      · have hget : (s.result ++ [current]).get ⟨j, hj⟩ = s.result.get ⟨j, hlt⟩ :=
          List.get_append_left _ _ hlt
        rw [hget] at hy
        have htake : (s.result ++ [current]).take j = s.result.take j :=
          List.take_append_of_le_length (Nat.le_of_lt hlt)
        rw [htake]
        exact hinv.topo j hlt y hy
      · have hjlen : j = s.result.length := by
          rw [List.length_append, List.length_singleton] at hj
          omega
        subst hjlen
        have hget : (s.result ++ [current]).get ⟨s.result.length, hj⟩ = current := by
          rw [List.get_append_right] <;> simp
        rw [hget] at hy
        have htake : (s.result ++ [current]).take s.result.length = s.result :=
          List.take_left s.result [current]
        rw [htake]
        exact hdeps_res y hy

theorem kahnStep_nocyc (prs : List ReviewAgent.PRNode) (s : KahnState)
    (hinv : KahnInv prs s) (hne : s.queue ≠ []) (hnc : KahnNoCyc prs s) :
    KahnNoCyc prs (kahnStep prs s) := by
  obtain ⟨hinv2, current, hcur_mem, hres2⟩ := kahnStep_spec prs s hinv hne
  intro z hz
  obtain ⟨hzR, hzQ⟩ := hnc z hz
  obtain ⟨w, hzw, hwz⟩ := (Relation.TransGen.head'_iff).mp hz
  have hw_cyc : Relation.TransGen (inEdge prs) w w := Relation.TransGen.tail' hwz hzw
  obtain ⟨hwR, hwQ⟩ := hnc w hw_cyc
  have hzc : z ≠ current := fun h => hzQ (h ▸ hcur_mem)
  constructor
  · rw [hres2]
    intro hmem
    rcases List.mem_append.mp hmem with h | h
    · exact hzR h
    · exact hzc (List.mem_singleton.mp h)
  · intro hzQ2
    have hzS : z ∈ prNumbers prs := hinv2.queueS z hzQ2
    obtain ⟨hzR2, hz0⟩ := (hinv2.queueChar z hzS).mp hzQ2
    have hwin : w ∈ inDeps prs z := hzw
    have hcard := hinv2.indegSpec z hzS
    rw [hz0] at hcard
    have hc0 : ((inDeps prs z).filter (· ∉ (kahnStep prs s).result)).card = 0 := by
      exact_mod_cast hcard.symm
    rw [Finset.card_eq_zero] at hc0
    have hwR2 : w ∈ (kahnStep prs s).result := by
      by_contra hnr
      have : w ∈ (inDeps prs z).filter (· ∉ (kahnStep prs s).result) :=
        Finset.mem_filter.mpr ⟨hwin, hnr⟩
      rw [hc0] at this
      exact absurd this (Finset.not_mem_empty w)
    rw [hres2] at hwR2
    rcases List.mem_append.mp hwR2 with h | h
    · exact hwR h
    · have hwc := List.mem_singleton.mp h
      rw [hwc] at hw_cyc
      exact (hnc current hw_cyc).2 hcur_mem

theorem kahnInit_nocyc (prs : List ReviewAgent.PRNode) : KahnNoCyc prs (kahnInit prs) := by
  intro z hz
  refine ⟨List.not_mem_nil z, ?_⟩
  intro hzq
  obtain ⟨w, hzw, hwz⟩ := (Relation.TransGen.head'_iff).mp hz
  rw [kahnInit] at hzq
  simp only [mem_sortNat, List.mem_filter, List.mem_dedup] at hzq
  have h0 : ((inDeps prs z).card : Int) = 0 := by simpa using hzq.2
  have hc : (inDeps prs z).card = 0 := by exact_mod_cast h0
  rw [Finset.card_eq_zero] at hc
  have hzw2 : w ∈ inDeps prs z := hzw
  rw [hc] at hzw2
  exact absurd hzw2 (Finset.not_mem_empty w)

theorem kahnRun_spec (prs : List ReviewAgent.PRNode) :
    ∀ (fuel : Nat) (s : KahnState), KahnInv prs s →
    (prNumbers prs).card ≤ fuel + s.result.length →
    KahnInv prs (kahnRun prs fuel s) ∧ (kahnRun prs fuel s).queue = [] ∧
    (KahnNoCyc prs s → KahnNoCyc prs (kahnRun prs fuel s)) ∧
    (∀ x ∈ s.result, x ∈ (kahnRun prs fuel s).result) := by
  intro fuel
  induction fuel with
  | zero =>
    intro s hinv hcard
    refine ⟨hinv, ?_, fun h => h, fun x hx => hx⟩
    by_contra hne
    obtain ⟨x, hx⟩ := List.exists_mem_of_ne_nil _ hne
    have hxS := hinv.queueS x hx
    have hxR := ((hinv.queueChar x hxS).mp hx).1
    have hsub : s.result.toFinset ⊆ prNumbers prs := by
      intro a ha
      exact hinv.resS a (List.mem_toFinset.mp ha)
    have hlen : s.result.toFinset.card = s.result.length :=
      List.toFinset_card_of_nodup hinv.resNodup
    have heq : s.result.toFinset = prNumbers prs :=
      Finset.eq_of_subset_of_card_le hsub (by omega)
    have hxm : x ∈ s.result.toFinset := heq ▸ hxS
    exact hxR (List.mem_toFinset.mp hxm)
  | succ fuel ih =>
    intro s hinv hcard
    unfold kahnRun
    by_cases hq : s.queue = []
    · rw [if_pos hq]
      exact ⟨hinv, hq, fun h => h, fun x hx => hx⟩
    · rw [if_neg hq]
      obtain ⟨hinv2, current, hc, hres2⟩ := kahnStep_spec prs s hinv hq
      have hlen2 : (kahnStep prs s).result.length = s.result.length + 1 := by
        rw [hres2]
        simp
      obtain ⟨ha, hb, hc2, hd⟩ := ih (kahnStep prs s) hinv2 (by omega)
      refine ⟨ha, hb, fun h => hc2 (kahnStep_nocyc prs s hinv hq h), ?_⟩
      intro x hx
      refine hd x ?_
      rw [hres2]
      exact List.mem_append.mpr (Or.inl hx)

theorem exists_transGen_cycle {r : Nat → Nat → Prop} (S : Finset Nat) (hne : S.Nonempty)
    (hstep : ∀ x ∈ S, ∃ y ∈ S, r x y) : ∃ z, Relation.TransGen r z z := by
  classical
  have hstep2 : ∀ x : {a // a ∈ S}, ∃ y : {a // a ∈ S}, r x.1 y.1 := by
    intro x
    obtain ⟨y, hy, hr⟩ := hstep x.1 x.2
    exact ⟨⟨y, hy⟩, hr⟩
  choose f hf using hstep2
  obtain ⟨x₀, hx₀⟩ := hne
  set g : Nat → {a // a ∈ S} := fun n => f^[n] ⟨x₀, hx₀⟩ with hg
  have hchain : ∀ n, r (g n).1 (g (n + 1)).1 := by
    intro n
    have hsucc : g (n + 1) = f (g n) := Function.iterate_succ_apply' f n _
    rw [hsucc]
    exact hf (g n)
  have htg : ∀ n k, Relation.TransGen r (g n).1 (g (n + k + 1)).1 := by
    intro n k
    induction k with
    | zero => exact Relation.TransGen.single (hchain n)
    | succ k ih => exact Relation.TransGen.tail ih (hchain (n + k + 1))
  have hcardlt : Fintype.card {a // a ∈ S} < Fintype.card (Fin (S.card + 1)) := by
    simp [Fintype.card_coe]
  obtain ⟨i, j, hij, hgij⟩ :=
    Fintype.exists_ne_map_eq_of_card_lt (fun i : Fin (S.card + 1) => g i) hcardlt
  have key : ∀ (m n : Nat), m < n → g m = g n → ∃ z, Relation.TransGen r z z := by
    intro m n hmn heq
    have hn : n = m + (n - m - 1) + 1 := by omega
    have ht := htg m (n - m - 1)
    rw [← hn] at ht
    refine ⟨(g m).1, ?_⟩
    rw [show (g n).1 = (g m).1 from congrArg Subtype.val heq.symm] at ht
    exact ht
  have hijne : (i : Nat) ≠ (j : Nat) := fun h => hij (Fin.ext h)
  rcases Nat.lt_or_ge i j with hlt | hge
  · exact key i j hlt hgij
  · exact key j i (by omega) hgij.symm

theorem transGen_inEdge_of_depEdge (prs : List ReviewAgent.PRNode) :
    ∀ a b, Relation.TransGen (depEdge prs) a b →
      b ∈ prNumbers prs → Relation.TransGen (inEdge prs) a b := by
  intro a b h
  induction h with
  | single hr => exact fun hb => Relation.TransGen.single (Finset.mem_filter.mpr ⟨hr, hb⟩)
  | tail hab hr ih =>
    exact fun hb =>
      Relation.TransGen.tail (ih (prDeps_source hr)) (Finset.mem_filter.mpr ⟨hr, hb⟩)

theorem c6_final (prs : List ReviewAgent.PRNode) :
    ((∀ z, ¬ Relation.TransGen (depEdge prs) z z) →
      ∃ l, topological_sort prs = .ok l ∧ l.Nodup ∧
        l.toFinset = prNumbers prs ∧
        ∀ x y, depEdge prs x y → y ∈ prNumbers prs →
          l.indexOf y < l.indexOf x) ∧
    ((∃ z, Relation.TransGen (depEdge prs) z z) →
      topological_sort prs = .error "Circular dependency detected") := by
  obtain ⟨hinv, hqempty, hnocyc, _⟩ :=
    kahnRun_spec prs (prNumbers prs).card (kahnInit prs) (kahnInit_inv prs)
      (by simp [kahnInit])
  set final := kahnRun prs (prNumbers prs).card (kahnInit prs) with hfinal
  have hsub : final.result.toFinset ⊆ prNumbers prs := by
    intro a ha
    exact hinv.resS a (List.mem_toFinset.mp ha)
  constructor
  · intro hacyc
    have hcover : final.result.toFinset = prNumbers prs := by
      by_contra hneq
      have hss : final.result.toFinset ⊂ prNumbers prs := ssubset_of_subset_of_ne hsub hneq
      obtain ⟨x₀, hx₀pn, hx₀r⟩ := Finset.exists_of_ssubset hss
      have hSne : (prNumbers prs \ final.result.toFinset).Nonempty :=
        ⟨x₀, Finset.mem_sdiff.mpr ⟨hx₀pn, hx₀r⟩⟩
      have hSstep : ∀ x ∈ prNumbers prs \ final.result.toFinset,
          ∃ y ∈ prNumbers prs \ final.result.toFinset, inEdge prs x y := by
        intro x hx
        obtain ⟨hxpn, hxr⟩ := Finset.mem_sdiff.mp hx
        have hxres : x ∉ final.result := fun h => hxr (List.mem_toFinset.mpr h)
        have hdeg : final.indeg x ≠ 0 := by
          intro h0
          have hq : x ∈ final.queue := (hinv.queueChar x hxpn).mpr ⟨hxres, h0⟩
          rw [hqempty] at hq
          exact absurd hq (List.not_mem_nil x)
        have hspec := hinv.indegSpec x hxpn
        have hcardne : ((inDeps prs x).filter (· ∉ final.result)).card ≠ 0 := by
          intro h
          rw [hspec, h] at hdeg
          exact hdeg rfl
        obtain ⟨y, hy⟩ := Finset.card_pos.mp (Nat.pos_of_ne_zero hcardne)
        obtain ⟨hyin, hynres⟩ := Finset.mem_filter.mp hy
        have hypn : y ∈ prNumbers prs := (Finset.mem_filter.mp hyin).2
        exact ⟨y, Finset.mem_sdiff.mpr
          ⟨hypn, fun h => hynres (List.mem_toFinset.mp h)⟩, hyin⟩
      obtain ⟨z, hz⟩ := exists_transGen_cycle _ hSne hSstep
      exact hacyc z (Relation.TransGen.mono (fun a b hab => (Finset.mem_filter.mp hab).1) hz)
    have hlenc : final.result.length = (prNumbers prs).card := by
      rw [← hcover]
      exact (List.toFinset_card_of_nodup hinv.resNodup).symm
    refine ⟨final.result, ?_, hinv.resNodup, hcover, ?_⟩
    · unfold topological_sort
      rw [if_neg (by rw [← hfinal]; exact not_ne_iff.mpr hlenc)]
    · intro x y hxy hypn
      have hxpn : x ∈ prNumbers prs := prDeps_source hxy
      have hxmem : x ∈ final.result := by
        rw [← List.mem_toFinset, hcover]
        exact hxpn
      have hymem : y ∈ final.result := by
        rw [← List.mem_toFinset, hcover]
        exact hypn
      obtain ⟨⟨j, hj⟩, hget⟩ := List.mem_iff_get.mp hxmem
      have hyin : y ∈ inDeps prs x := Finset.mem_filter.mpr ⟨hxy, hypn⟩
      have hytake : y ∈ final.result.take j := by
        have htopo := hinv.topo j hj
        rw [hget] at htopo
        exact htopo y hyin
      have hxidx : final.result.indexOf x = j := by
        have hlt : final.result.indexOf x < final.result.length :=
          List.indexOf_lt_length.mpr hxmem
        have h1 : final.result.get ⟨final.result.indexOf x, hlt⟩ = x := List.indexOf_get hlt
        have h2 := h1.trans hget.symm
        have := (List.Nodup.get_inj_iff hinv.resNodup).mp h2
        exact congrArg Fin.val this
      have hyidx : final.result.indexOf y < j := by
        have hsplit : final.result = final.result.take j ++ final.result.drop j :=
          (List.take_append_drop j final.result).symm
        have heq : final.result.indexOf y = (final.result.take j).indexOf y := by
          conv_lhs => rw [hsplit]
          exact List.indexOf_append_of_mem hytake
        rw [heq]
        calc (final.result.take j).indexOf y < (final.result.take j).length :=
              List.indexOf_lt_length.mpr hytake
          _ ≤ j := by
              rw [List.length_take]
              omega
      rw [hxidx]
      exact hyidx
  · intro ⟨z, hz⟩
    have hzpn : z ∈ prNumbers prs := by
      obtain ⟨w, hzw, _⟩ := (Relation.TransGen.head'_iff).mp hz
      exact prDeps_source hzw
    have hzin : Relation.TransGen (inEdge prs) z z :=
      transGen_inEdge_of_depEdge prs z z hz hzpn
    have hzres : z ∉ final.result := (hnocyc (kahnInit_nocyc prs) z hzin).1
    have hss : final.result.toFinset ⊂ prNumbers prs := by
      refine Finset.ssubset_iff_of_subset hsub |>.mpr ?_
      exact ⟨z, hzpn, fun h => hzres (List.mem_toFinset.mp h)⟩
    have hlt : final.result.length < (prNumbers prs).card := by
      have := Finset.card_lt_card hss
      rwa [List.toFinset_card_of_nodup hinv.resNodup] at this
    unfold topological_sort
    rw [if_pos (by rw [← hfinal]; omega)]


theorem transGen_rank_lt {r : Nat → Nat → Prop} (hf : ∀ a b, r a b → b < a) :
    ∀ a b, Relation.TransGen r a b → b < a := by
  intro a b h
  induction h with
  | single hr => exact hf _ _ hr
  | tail hab hr ih => exact lt_trans (hf _ _ hr) ih

end KahnProof

/-- Claim C6: for every PRNode set whose dependency relation (PR `x` depends
on PR `y` iff `x`'s base is `y`'s branch or `y` is in `x`'s explicit
depends-on list, as built by `build_dependency_graph`) is acyclic,
`topological_sort` returns a duplicate-free enumeration of the PR numbers in
which every dependency precedes each of its dependents; for every cyclic set
it raises `ValueError`. -/
theorem c6_topological_sort_spec (prs : List ReviewAgent.PRNode) :
    ((∀ z, ¬ Relation.TransGen (ReviewAgent.depEdge prs) z z) →
      ∃ l, ReviewAgent.topological_sort prs = .ok l ∧ l.Nodup ∧
        l.toFinset = ReviewAgent.prNumbers prs ∧
        ∀ x y, ReviewAgent.depEdge prs x y → y ∈ ReviewAgent.prNumbers prs →
          l.indexOf y < l.indexOf x) ∧
    ((∃ z, Relation.TransGen (ReviewAgent.depEdge prs) z z) →
      ReviewAgent.topological_sort prs = .error "Circular dependency detected") :=
  KahnProof.c6_final prs

/-- Witness for C6: the acyclic two-PR fixture (PR 2 depends on PR 1)
satisfies the sorting contract, and the two-PR cycle raises. -/
theorem c6_topological_sort_spec_witness :
    (∃ l, ReviewAgent.topological_sort ReviewAgent.prs6a = .ok l ∧ l.Nodup ∧
        l.toFinset = ReviewAgent.prNumbers ReviewAgent.prs6a ∧
        ∀ x y, ReviewAgent.depEdge ReviewAgent.prs6a x y →
          y ∈ ReviewAgent.prNumbers ReviewAgent.prs6a →
          l.indexOf y < l.indexOf x) ∧
    ReviewAgent.topological_sort ReviewAgent.prs6b
      = .error "Circular dependency detected" := by
  constructor
  · refine (c6_topological_sort_spec ReviewAgent.prs6a).1 ?_
    intro z hz
    have hrank : ∀ a b, ReviewAgent.depEdge ReviewAgent.prs6a a b → b < a := by
      intro a b h
      have ha := KahnProof.prDeps_source h
      have hpn : ReviewAgent.prNumbers ReviewAgent.prs6a = {1, 2} := by decide
      rw [hpn] at ha
      rcases Finset.mem_insert.mp ha with h1 | h2
      · subst h1
        have h3 : b ∈ ReviewAgent.prDeps ReviewAgent.prs6a 1 := h
        have he : ReviewAgent.prDeps ReviewAgent.prs6a 1 = ∅ := by decide
        rw [he] at h3
        exact absurd h3 (Finset.not_mem_empty b)
      · have ha2 : a = 2 := Finset.mem_singleton.mp h2
        subst ha2
        have h3 : b ∈ ReviewAgent.prDeps ReviewAgent.prs6a 2 := h
        have he : ReviewAgent.prDeps ReviewAgent.prs6a 2 = {1} := by decide
        rw [he] at h3
        rw [Finset.mem_singleton.mp h3]
        exact Nat.one_lt_two
    exact absurd (KahnProof.transGen_rank_lt hrank z z hz) (lt_irrefl z)
  · refine (c6_topological_sort_spec ReviewAgent.prs6b).2 ⟨1, ?_⟩
    exact Relation.TransGen.tail
      (Relation.TransGen.single (by decide : ReviewAgent.depEdge ReviewAgent.prs6b 1 2))
      (by decide : ReviewAgent.depEdge ReviewAgent.prs6b 2 1)

namespace ConflictProof
open ReviewAgent

theorem mem_dedupFirstAux {α : Type} [DecidableEq α] (l : List α) :
    ∀ (seen : List α) (x : α), x ∈ dedupFirstAux seen l ↔ x ∈ l ∧ x ∉ seen := by
  induction l with
  | nil => intro seen x; simp [dedupFirstAux]
  | cons y ys ih =>
    intro seen x
    unfold dedupFirstAux
    by_cases hy : y ∈ seen
    · rw [if_pos hy, ih]
      constructor
      · rintro ⟨h1, h2⟩; exact ⟨List.mem_cons_of_mem y h1, h2⟩
      · rintro ⟨h1, h2⟩
        rcases List.mem_cons.mp h1 with h | h
        · exact absurd (h ▸ hy) h2
        · exact ⟨h, h2⟩
    · rw [if_neg hy]
      constructor
      · intro h
        rcases List.mem_cons.mp h with h | h
        · exact ⟨h ▸ List.mem_cons_self y ys, h ▸ hy⟩
        · rcases (ih _ _).mp h with ⟨h1, h2⟩
          refine ⟨List.mem_cons_of_mem y h1, fun hs => h2 (List.mem_cons_of_mem y hs)⟩
      · rintro ⟨h1, h2⟩
        rcases List.mem_cons.mp h1 with h | h
        · exact h ▸ List.mem_cons_self _ _
        · by_cases hxy : x = y
          · exact hxy ▸ List.mem_cons_self _ _
          · exact List.mem_cons_of_mem y ((ih _ _).mpr
              ⟨h, fun hs => (List.mem_cons.mp hs).elim hxy h2⟩)

theorem mem_dedupFirst {α : Type} [DecidableEq α] {l : List α} {x : α} :
    x ∈ dedupFirst l ↔ x ∈ l := by
  rw [dedupFirst, mem_dedupFirstAux]; simp

theorem nodup_dedupFirstAux {α : Type} [DecidableEq α] (l : List α) :
    ∀ seen : List α, (dedupFirstAux seen l).Nodup := by
  induction l with
  | nil => intro seen; simp [dedupFirstAux]
  | cons y ys ih =>
    intro seen
    unfold dedupFirstAux
    by_cases hy : y ∈ seen
    · rw [if_pos hy]; exact ih seen
    · rw [if_neg hy]
      refine List.nodup_cons.mpr ⟨fun hmem => ?_, ih _⟩
      exact ((mem_dedupFirstAux ys _ y).mp hmem).2 (List.mem_cons_self _ _)

theorem findRoot_of_root {m : Nat → Nat} {x : Nat} (h : m x = x) :
    ∀ fuel, findRoot m fuel x = x := by
  intro fuel; cases fuel with
  | zero => rfl
  | succ f => unfold findRoot; rw [if_pos h]

theorem findRoot_eq_iterate {m : Nat → Nat} :
    ∀ (fuel : Nat) (x n : Nat), m (m^[n] x) = m^[n] x → n ≤ fuel →
      findRoot m fuel x = m^[n] x := by
  intro fuel
  induction fuel with
  | zero =>
    intro x n hroot hle
    interval_cases n
    rfl
  | succ f ih =>
    intro x n hroot hle
    by_cases hx : m x = x
    · rw [findRoot_of_root hx, Function.iterate_fixed hx]
    · unfold findRoot
      rw [if_neg hx]
      cases n with
      | zero => exact absurd hroot hx
      | succ n' =>
        rw [Function.iterate_succ_apply] at hroot ⊢
        exact ih (m x) n' hroot (Nat.le_of_succ_le_succ hle)

theorem iterate_mem_pn {prs : List PRNode} {m : Nat → Nat} (hinv : UFInv prs m)
    {x : Nat} (hx : x ∈ prNumbers prs) (k : Nat) : m^[k] x ∈ prNumbers prs := by
  induction k with
  | zero => exact hx
  | succ k ih =>
    rw [Function.iterate_succ_apply']
    by_cases h : m (m^[k] x) = m^[k] x
    · rw [h]; exact ih
    · exact (hinv.support _ h).2

theorem card_le_len (prs : List PRNode) : (prNumbers prs).card ≤ prs.length := by
  calc (prNumbers prs).card ≤ (prNumbersList prs).length := List.toFinset_card_le _
  _ = prs.length := List.length_map _ _

theorem exists_root_iterate {prs : List PRNode} {m : Nat → Nat} (hinv : UFInv prs m)
    (x : Nat) : ∃ n ≤ (prNumbers prs).card, m (m^[n] x) = m^[n] x := by
  by_contra hcon
  push_neg at hcon
  have hnr : ∀ n ≤ (prNumbers prs).card, m (m^[n] x) ≠ m^[n] x := hcon
  have hmem : ∀ i : Fin ((prNumbers prs).card + 1),
      m^[(i : Nat) + 1] x ∈ prNumbers prs := by
    intro i
    rw [Function.iterate_succ_apply']
    exact (hinv.support _ (hnr i (Nat.lt_succ_iff.mp i.isLt))).2
  let F : Fin ((prNumbers prs).card + 1) → {a // a ∈ prNumbers prs} :=
    fun i => ⟨m^[(i : Nat) + 1] x, hmem i⟩
  have hcard : Fintype.card {a // a ∈ prNumbers prs} <
      Fintype.card (Fin ((prNumbers prs).card + 1)) := by
    rw [Fintype.card_coe, Fintype.card_fin]
    exact Nat.lt_succ_self _
  obtain ⟨i, j, hij, hFij⟩ := Fintype.exists_ne_map_eq_of_card_lt F hcard
  rcases Nat.lt_or_ge (i : Nat) (j : Nat) with hlt | hge
  · have heq : m^[(i : Nat) + 1] x = m^[(j : Nat) + 1] x :=
      congrArg Subtype.val hFij
    have hd : 0 < (j : Nat) - (i : Nat) := Nat.sub_pos_of_lt hlt
    have hiter : m^[(j : Nat) - (i : Nat)] (m^[(i : Nat) + 1] x) = m^[(i : Nat) + 1] x := by
      rw [← Function.iterate_add_apply]
      have : (j : Nat) - (i : Nat) + ((i : Nat) + 1) = (j : Nat) + 1 := by omega
      rw [this, ← heq]
    have hfix := hinv.acyc _ _ hd hiter
    exact hnr ((i : Nat) + 1) (by omega) (by
      rw [Function.iterate_succ_apply'] at hfix ⊢
      exact hfix)
  · have hlt2 : (j : Nat) < (i : Nat) := by
      rcases Nat.lt_or_ge (j : Nat) (i : Nat) with h | h
      · exact h
      · exact absurd (Fin.ext (Nat.le_antisymm h hge)) hij
    have heq : m^[(j : Nat) + 1] x = m^[(i : Nat) + 1] x :=
      (congrArg Subtype.val hFij).symm
    have hd : 0 < (i : Nat) - (j : Nat) := Nat.sub_pos_of_lt hlt2
    have hiter : m^[(i : Nat) - (j : Nat)] (m^[(j : Nat) + 1] x) = m^[(j : Nat) + 1] x := by
      rw [← Function.iterate_add_apply]
      have : (i : Nat) - (j : Nat) + ((j : Nat) + 1) = (i : Nat) + 1 := by omega
      rw [this, ← heq]
    have hfix := hinv.acyc _ _ hd hiter
    exact hnr ((j : Nat) + 1) (by omega) (by
      rw [Function.iterate_succ_apply'] at hfix ⊢
      exact hfix)

theorem ufFind_eq_iterate {prs : List PRNode} {m : Nat → Nat} (hinv : UFInv prs m)
    (x : Nat) : ∃ n ≤ (prNumbers prs).card,
      m (m^[n] x) = m^[n] x ∧ ufFind prs m x = m^[n] x := by
  obtain ⟨n, hle, hroot⟩ := exists_root_iterate hinv x
  exact ⟨n, hle, hroot, findRoot_eq_iterate _ x n hroot
    (le_trans hle (le_trans (card_le_len prs) (Nat.le_succ _)))⟩

theorem ufFind_root {prs : List PRNode} {m : Nat → Nat} (hinv : UFInv prs m)
    (x : Nat) : m (ufFind prs m x) = ufFind prs m x := by
  obtain ⟨n, _, hroot, heq⟩ := ufFind_eq_iterate hinv x
  rw [heq]; exact hroot

theorem ufFind_of_root {prs : List PRNode} {m : Nat → Nat} {x : Nat}
    (h : m x = x) : ufFind prs m x = x := findRoot_of_root h _

theorem ufFind_apply {prs : List PRNode} {m : Nat → Nat} (hinv : UFInv prs m)
    (x : Nat) : ufFind prs m (m x) = ufFind prs m x := by
  by_cases hx : m x = x
  · rw [hx]
  · obtain ⟨n, hle, hroot, heq⟩ := ufFind_eq_iterate hinv x
    cases n with
    | zero => exact absurd hroot hx
    | succ n' =>
      rw [Function.iterate_succ_apply] at hroot heq
      rw [heq]
      exact findRoot_eq_iterate _ (m x) n' hroot
        (le_trans (Nat.le_of_succ_le_succ (Nat.succ_le_succ (le_trans
          (Nat.le_of_succ_le hle) (card_le_len prs)))) (Nat.le_succ _))

theorem ufFind_mem {prs : List PRNode} {m : Nat → Nat} (hinv : UFInv prs m)
    {x : Nat} (hx : x ∈ prNumbers prs) : ufFind prs m x ∈ prNumbers prs := by
  obtain ⟨n, _, _, heq⟩ := ufFind_eq_iterate hinv x
  rw [heq]; exact iterate_mem_pn hinv hx n

theorem update_inv {prs : List PRNode} {m : Nat → Nat} (hinv : UFInv prs m)
    {px py : Nat} (hrx : m px = px) (hry : m py = py) (hne : px ≠ py)
    (hpx : px ∈ prNumbers prs) (hpy : py ∈ prNumbers prs) :
    UFInv prs (Function.update m px py) := by
  set m2 := Function.update m px py with hm2
  have hm2px : m2 px = py := Function.update_same px py m
  have hm2_ne : ∀ z, z ≠ px → m2 z = m z := fun z hz => Function.update_noteq hz py m
  constructor
  · intro z hz
    by_cases hzpx : z = px
    · subst hzpx
      rw [hm2px]
      exact ⟨hpx, hpy⟩
    · rw [hm2_ne z hzpx] at hz ⊢
      exact hinv.support z hz
  · intro z n hn hcyc
    by_cases hk : ∃ k, k < n ∧ m2^[k] z = px
    · obtain ⟨k, hk1, hk2⟩ := hk
      have hpyfix : m2 py = py := by rw [hm2_ne py (Ne.symm hne)]; exact hry
      have hstay : ∀ i, m2^[k + 1 + i] z = py := by
        intro i
        induction i with
        | zero =>
          rw [Nat.add_zero, Function.iterate_succ_apply', hk2, hm2px]
        | succ i ih =>
          have : k + 1 + (i + 1) = (k + 1 + i) + 1 := by omega
          rw [this, Function.iterate_succ_apply', ih, hpyfix]
      have hzpy : z = py := by
        have : k + 1 + (n - k - 1) = n := by omega
        calc z = m2^[n] z := hcyc.symm
        _ = m2^[k + 1 + (n - k - 1)] z := by rw [this]
        _ = py := hstay _
      rw [hzpy, hpyfix]
    · push_neg at hk
      have hsame : ∀ j, j ≤ n → m2^[j] z = m^[j] z := by
        intro j
        induction j with
        | zero => intro _; rfl
        | succ j ih =>
          intro hjle
          have hjn : j < n := by omega
          rw [Function.iterate_succ_apply', Function.iterate_succ_apply',
            ih (by omega), hm2_ne _ (by rw [← ih (by omega)]; exact hk j hjn)]
      have hmz : m z = z := hinv.acyc z n hn (by rw [← hsame n (le_refl n)]; exact hcyc)
      have hzpx : z ≠ px := by
        have := hk 0 hn
        simpa using this
      rw [hm2_ne z hzpx]
      exact hmz

theorem update_find {prs : List PRNode} {m : Nat → Nat} (hinv : UFInv prs m)
    {px py : Nat} (hrx : m px = px) (hry : m py = py) (hne : px ≠ py)
    (hpx : px ∈ prNumbers prs) (hpy : py ∈ prNumbers prs) (z : Nat) :
    ufFind prs (Function.update m px py) z =
      if ufFind prs m z = px then py else ufFind prs m z := by
  have hinv2 := update_inv hinv hrx hry hne hpx hpy
  set m2 := Function.update m px py with hm2
  have hm2px : m2 px = py := Function.update_same px py m
  have hm2_ne : ∀ w, w ≠ px → m2 w = m w := fun w hw => Function.update_noteq hw py m
  have hpyfix : m2 py = py := by rw [hm2_ne py (Ne.symm hne)]; exact hry
  have aux : ∀ n w, m (m^[n] w) = m^[n] w →
      ufFind prs m2 w = if ufFind prs m w = px then py else ufFind prs m w := by
    intro n
    induction n with
    | zero =>
      intro w hroot
      rw [Function.iterate_zero_apply] at hroot
      by_cases hw : w = px
      · subst hw
        rw [if_pos (ufFind_of_root hroot)]
        calc ufFind prs m2 w = ufFind prs m2 (m2 w) := (ufFind_apply hinv2 w).symm
        _ = ufFind prs m2 py := by rw [hm2px]
        _ = py := ufFind_of_root hpyfix
      · have hz2 : m2 w = w := by rw [hm2_ne w hw]; exact hroot
        rw [ufFind_of_root hz2, ufFind_of_root hroot, if_neg hw]
    | succ n ih =>
      intro w hroot
      by_cases hwr : m w = w
      · exact ih w (by rw [Function.iterate_fixed hwr]; exact hwr)
      · have hwpx : w ≠ px := fun h => hwr (h ▸ hrx)
        calc ufFind prs m2 w = ufFind prs m2 (m2 w) := (ufFind_apply hinv2 w).symm
        _ = ufFind prs m2 (m w) := by rw [hm2_ne w hwpx]
        _ = if ufFind prs m (m w) = px then py else ufFind prs m (m w) :=
          ih (m w) (by rw [← Function.iterate_succ_apply]; exact hroot)
        _ = if ufFind prs m w = px then py else ufFind prs m w := by
          rw [ufFind_apply hinv w]
  obtain ⟨n, _, hroot⟩ := exists_root_iterate hinv z
  exact aux n z hroot

theorem ufUnion_inv {prs : List PRNode} {m : Nat → Nat} (hinv : UFInv prs m)
    {x y : Nat} (hx : x ∈ prNumbers prs) (hy : y ∈ prNumbers prs) :
    UFInv prs (ufUnion prs m x y) := by
  unfold ufUnion
  dsimp only
  split
  · exact hinv
  · exact update_inv hinv (ufFind_root hinv x) (ufFind_root hinv y) (by assumption)
      (ufFind_mem hinv hx) (ufFind_mem hinv hy)

theorem ufUnion_find {prs : List PRNode} {m : Nat → Nat} (hinv : UFInv prs m)
    {x y : Nat} (hx : x ∈ prNumbers prs) (hy : y ∈ prNumbers prs) (z : Nat) :
    ufFind prs (ufUnion prs m x y) z =
      if ufFind prs m z = ufFind prs m x then ufFind prs m y
      else ufFind prs m z := by
  unfold ufUnion
  dsimp only
  split
  · rename_i heq
    by_cases h : ufFind prs m z = ufFind prs m x
    · rw [if_pos h, h, heq]
    · rw [if_neg h]
  · exact update_find hinv (ufFind_root hinv x) (ufFind_root hinv y) (by assumption)
      (ufFind_mem hinv hx) (ufFind_mem hinv hy) z

theorem id_UFInv (prs : List PRNode) : UFInv prs id := by
  constructor
  · intro x hx; exact absurd rfl hx
  · intro x n _ _; rfl

theorem ufFold_spec (prs : List PRNode) :
    ∀ (pairs : List (Nat × Nat)) (m : Nat → Nat), UFInv prs m →
    (∀ pq ∈ pairs, pq.1 ∈ prNumbers prs ∧ pq.2 ∈ prNumbers prs) →
    UFInv prs (pairs.foldl (fun m pq => ufUnion prs m pq.1 pq.2) m) ∧
    (∀ a b, ufFind prs m a = ufFind prs m b →
      ufFind prs (pairs.foldl (fun m pq => ufUnion prs m pq.1 pq.2) m) a =
      ufFind prs (pairs.foldl (fun m pq => ufUnion prs m pq.1 pq.2) m) b) ∧
    (∀ pq ∈ pairs,
      ufFind prs (pairs.foldl (fun m pq => ufUnion prs m pq.1 pq.2) m) pq.1 =
      ufFind prs (pairs.foldl (fun m pq => ufUnion prs m pq.1 pq.2) m) pq.2) := by
  intro pairs
  induction pairs with
  | nil =>
    intro m hinv hmem
    exact ⟨hinv, fun a b h => h, by simp⟩
  | cons pq ps ih =>
    intro m hinv hmem
    have hpq := hmem pq (List.mem_cons_self _ _)
    have hinv1 : UFInv prs (ufUnion prs m pq.1 pq.2) := ufUnion_inv hinv hpq.1 hpq.2
    have hmem1 : ∀ r ∈ ps, r.1 ∈ prNumbers prs ∧ r.2 ∈ prNumbers prs :=
      fun r hr => hmem r (List.mem_cons_of_mem _ hr)
    obtain ⟨hinvF, hpres, hpairs⟩ := ih (ufUnion prs m pq.1 pq.2) hinv1 hmem1
    have hpres1 : ∀ a b, ufFind prs m a = ufFind prs m b →
        ufFind prs (ufUnion prs m pq.1 pq.2) a =
        ufFind prs (ufUnion prs m pq.1 pq.2) b := by
      intro a b h
      rw [ufUnion_find hinv hpq.1 hpq.2 a, ufUnion_find hinv hpq.1 hpq.2 b, h]
    have hhead : ufFind prs (ufUnion prs m pq.1 pq.2) pq.1 =
        ufFind prs (ufUnion prs m pq.1 pq.2) pq.2 := by
      rw [ufUnion_find hinv hpq.1 hpq.2 pq.1, ufUnion_find hinv hpq.1 hpq.2 pq.2,
        if_pos rfl, ite_self]
    simp only [List.foldl_cons]
    refine ⟨hinvF, fun a b h => hpres a b (hpres1 a b h), ?_⟩
    intro r hr
    rcases List.mem_cons.mp hr with h | h
    · subst h
      exact hpres r.1 r.2 hhead
    · exact hpairs r h

theorem mem_filePrsSorted_iff {prs : List PRNode} {f : String} {a : Nat} :
    a ∈ filePrsSorted prs f ↔ a ∈ filePrsList prs f := by
  rw [filePrsSorted, KahnProof.mem_sortNat, List.mem_dedup]

theorem mem_filePrs_iff {prs : List PRNode} {f : String} {a : Nat} :
    a ∈ filePrs prs f ↔ a ∈ filePrsList prs f := by
  rw [filePrs, List.mem_toFinset]

theorem filePrsList_sub_pn {prs : List PRNode} {f : String} {a : Nat}
    (h : a ∈ filePrsList prs f) : a ∈ prNumbers prs := by
  rw [filePrsList, List.mem_map] at h
  obtain ⟨pr, hpr, hnum⟩ := h
  rw [prNumbers, List.mem_toFinset, prNumbersList, List.mem_map]
  exact ⟨pr, List.mem_of_mem_filter hpr, hnum⟩

theorem unionPairs_mem {prs : List PRNode} {pq : Nat × Nat}
    (h : pq ∈ unionPairs prs) : pq.1 ∈ prNumbers prs ∧ pq.2 ∈ prNumbers prs := by
  rw [unionPairs, List.mem_flatMap] at h
  obtain ⟨f, _, hpair⟩ := h
  rcases hlist : filePrsSorted prs f with _ | ⟨p, rest⟩
  · rw [hlist] at hpair; simp at hpair
  · rw [hlist, List.mem_map] at hpair
    obtain ⟨q, hq, hpq⟩ := hpair
    subst hpq
    constructor
    · exact filePrsList_sub_pn (mem_filePrsSorted_iff.mp
        (hlist ▸ List.mem_cons_self p rest))
    · exact filePrsList_sub_pn (mem_filePrsSorted_iff.mp
        (hlist ▸ List.mem_cons_of_mem p hq))

theorem buildUF_inv (prs : List PRNode) : UFInv prs (buildUF prs) :=
  (ufFold_spec prs (unionPairs prs) id (id_UFInv prs)
    (fun _ h => unionPairs_mem h)).1

theorem buildUF_pair {prs : List PRNode} {pq : Nat × Nat}
    (h : pq ∈ unionPairs prs) :
    ufFind prs (buildUF prs) pq.1 = ufFind prs (buildUF prs) pq.2 :=
  (ufFold_spec prs (unionPairs prs) id (id_UFInv prs)
    (fun _ h => unionPairs_mem h)).2.2 pq h

theorem filePrs_root_eq {prs : List PRNode} {f : String} {a b : Nat}
    (ha : a ∈ filePrs prs f) (hb : b ∈ filePrs prs f) :
    ufFind prs (buildUF prs) a = ufFind prs (buildUF prs) b := by
  have hf : f ∈ indexFiles prs := by
    have := mem_filePrs_iff.mp ha
    rw [filePrsList, List.mem_map] at this
    obtain ⟨pr, hpr, _⟩ := this
    rw [indexFiles, mem_dedupFirst, List.mem_flatMap]
    rcases List.mem_filter.mp hpr with ⟨h1, h2⟩
    exact ⟨pr, h1, of_decide_eq_true h2⟩
  have ha2 : a ∈ filePrsSorted prs f := mem_filePrsSorted_iff.mpr (mem_filePrs_iff.mp ha)
  have hb2 : b ∈ filePrsSorted prs f := mem_filePrsSorted_iff.mpr (mem_filePrs_iff.mp hb)
  rcases hlist : filePrsSorted prs f with _ | ⟨p, rest⟩
  · rw [hlist] at ha2; simp at ha2
  · have hroot : ∀ c ∈ filePrsSorted prs f,
        ufFind prs (buildUF prs) c = ufFind prs (buildUF prs) p := by
      intro c hc
      rw [hlist] at hc
      rcases List.mem_cons.mp hc with h | h
      · rw [h]
      · have hpair : (p, c) ∈ unionPairs prs := by
          rw [unionPairs, List.mem_flatMap]
          refine ⟨f, hf, ?_⟩
          rw [hlist, List.mem_map]
          exact ⟨c, h, rfl⟩
        exact (buildUF_pair hpair).symm
    rw [hroot a ha2, hroot b hb2]

theorem share_chain_root {prs : List PRNode} {a b : Nat}
    (h : Relation.ReflTransGen (sharesFile prs) a b) :
    ufFind prs (buildUF prs) a = ufFind prs (buildUF prs) b := by
  induction h with
  | refl => rfl
  | tail _ hbc ih =>
    obtain ⟨f, hb, hc⟩ := hbc
    exact ih.trans (filePrs_root_eq hb hc)

theorem group_struct {prs : List PRNode} {g : List Nat}
    (h : g ∈ _find_conflict_groups prs) :
    ∃ r, g = (prNumbersList prs).filter
      (fun p => ufFind prs (buildUF prs) p == r) ∧ 1 < g.length := by
  rw [_find_conflict_groups] at h
  rcases List.mem_filter.mp h with ⟨hmap, hlen⟩
  rw [List.mem_map] at hmap
  obtain ⟨r, _, hr⟩ := hmap
  exact ⟨r, hr.symm, of_decide_eq_true hlen⟩

theorem mem_group {prs : List PRNode} {g : List Nat} {r x : Nat}
    (hg : g = (prNumbersList prs).filter (fun p => ufFind prs (buildUF prs) p == r))
    (hx : x ∈ g) : x ∈ prNumbersList prs ∧ ufFind prs (buildUF prs) x = r := by
  subst hg
  rcases List.mem_filter.mp hx with ⟨h1, h2⟩
  exact ⟨h1, by simpa using h2⟩

theorem groups_disj {prs : List PRNode} {g g' : List Nat}
    (hg : g ∈ _find_conflict_groups prs) (hg' : g' ∈ _find_conflict_groups prs)
    (hne : g ≠ g') : ∀ x ∈ g, x ∉ g' := by
  obtain ⟨r, hr, _⟩ := group_struct hg
  obtain ⟨r2, hr2, _⟩ := group_struct hg'
  intro x hx hx'
  have h1 := (mem_group hr hx).2
  have h2 := (mem_group hr2 hx').2
  have hrr : r = r2 := h1.symm.trans h2
  exact hne (by rw [hr, hr2, hrr])

theorem group_nodup {prs : List PRNode} (hnd : (prNumbersList prs).Nodup)
    {g : List Nat} (hg : g ∈ _find_conflict_groups prs) : g.Nodup := by
  obtain ⟨r, hr, _⟩ := group_struct hg
  rw [hr]
  exact hnd.filter _

theorem one_lt_length_of_two_mem {l : List Nat} {a b : Nat} (hne : a ≠ b)
    (ha : a ∈ l) (hb : b ∈ l) : 1 < l.length := by
  rcases l with _ | ⟨c, _ | ⟨d, rest⟩⟩
  · simp at ha
  · simp at ha hb
    exact absurd (ha.trans hb.symm) hne
  · simp only [List.length_cons]
    omega

theorem exists_group {prs : List PRNode} {a b : Nat}
    (ha : a ∈ prNumbersList prs) (hb : b ∈ prNumbersList prs) (hne : a ≠ b)
    (hroot : ufFind prs (buildUF prs) a = ufFind prs (buildUF prs) b) :
    ∃ g ∈ _find_conflict_groups prs, a ∈ g ∧ b ∈ g := by
  refine ⟨(prNumbersList prs).filter
    (fun p => ufFind prs (buildUF prs) p == ufFind prs (buildUF prs) a), ?_, ?_, ?_⟩
  · rw [_find_conflict_groups]
    apply List.mem_filter.mpr
    refine ⟨?_, ?_⟩
    · rw [List.mem_map]
      exact ⟨ufFind prs (buildUF prs) a,
        mem_dedupFirst.mpr (List.mem_map.mpr ⟨a, ha, rfl⟩), rfl⟩
    · apply decide_eq_true
      apply one_lt_length_of_two_mem hne
      · exact List.mem_filter.mpr ⟨ha, by simp⟩
      · exact List.mem_filter.mpr ⟨hb, by simp [hroot]⟩
  · exact List.mem_filter.mpr ⟨ha, by simp⟩
  · exact List.mem_filter.mpr ⟨hb, by simp [hroot]⟩

theorem sorted_insertSortedBy (key : Nat → Nat) (n : Nat) :
    ∀ l : List Nat, l.Pairwise (fun a b => key a ≤ key b) →
    (insertSortedBy key n l).Pairwise (fun a b => key a ≤ key b) := by
  intro l
  induction l with
  | nil => intro _; simp [insertSortedBy]
  | cons x xs ih =>
    intro h
    rcases List.pairwise_cons.mp h with ⟨hx, hxs⟩
    unfold insertSortedBy
    by_cases hle : key n ≤ key x
    · rw [if_pos hle]
      refine List.pairwise_cons.mpr ⟨?_, h⟩
      intro b hb
      rcases List.mem_cons.mp hb with h1 | h1
      · exact h1 ▸ hle
      · exact le_trans hle (hx b h1)
    · rw [if_neg hle]
      refine List.pairwise_cons.mpr ⟨?_, ih hxs⟩
      intro b hb
      rcases List.mem_cons.mp
          ((KahnProof.insertSortedBy_perm key n xs).mem_iff.mp hb) with h1 | h1
      · exact h1 ▸ Nat.le_of_not_le hle
      · exact hx b h1

theorem sorted_sortBy (key : Nat → Nat) (l : List Nat) :
    (sortBy key l).Pairwise (fun a b => key a ≤ key b) := by
  induction l with
  | nil => simp [sortBy]
  | cons x xs ih => exact sorted_insertSortedBy key x _ ih

theorem emitGroup_untouched :
    ∀ (g result used : List Nat), g.Nodup → (∀ x ∈ g, x ∉ used) →
    emitGroup g (result, used) = (result ++ g, used ++ g) := by
  intro g
  induction g with
  | nil =>
    intro result used _ _
    simp [emitGroup]
  | cons x xs ih =>
    intro result used hnd hun
    have hxnot : x ∉ used := hun x (List.mem_cons_self _ _)
    have hrest : ∀ y ∈ xs, y ∉ used ++ [x] := by
      intro y hy hmem
      rcases List.mem_append.mp hmem with h | h
      · exact hun y (List.mem_cons_of_mem _ hy) h
      · have hyx : y = x := by simpa using h
        exact (List.nodup_cons.mp hnd).1 (hyx ▸ hy)
    have step : emitGroup (x :: xs) (result, used) =
        emitGroup xs (result ++ [x], used ++ [x]) := by
      rw [emitGroup, emitGroup, List.foldl_cons]
      dsimp only
      rw [if_neg hxnot]
    rw [step, ih _ _ (List.nodup_cons.mp hnd).2 hrest]
    simp

theorem emitGroup_preserves :
    ∀ (g result used : List Nat), result.Nodup → (∀ x ∈ result, x ∈ used) →
    (emitGroup g (result, used)).1.Nodup ∧
    (∀ x ∈ (emitGroup g (result, used)).1, x ∈ (emitGroup g (result, used)).2) := by
  intro g
  induction g with
  | nil =>
    intro result used h1 h2
    exact ⟨h1, h2⟩
  | cons x xs ih =>
    intro result used h1 h2
    by_cases hx : x ∈ used
    · have step : emitGroup (x :: xs) (result, used) = emitGroup xs (result, used) := by
        rw [emitGroup, emitGroup, List.foldl_cons]
        dsimp only
        rw [if_pos hx]
      rw [step]
      exact ih _ _ h1 h2
    · have step : emitGroup (x :: xs) (result, used) =
          emitGroup xs (result ++ [x], used ++ [x]) := by
        rw [emitGroup, emitGroup, List.foldl_cons]
        dsimp only
        rw [if_neg hx]
      rw [step]
      apply ih
      · exact List.nodup_append.mpr ⟨h1, List.nodup_singleton x,
          fun a ha hmem => hx (((by simpa using hmem : a = x)) ▸ h2 a ha)⟩
      · intro y hy
        rcases List.mem_append.mp hy with h | h
        · exact List.mem_append.mpr (Or.inl (h2 y h))
        · exact List.mem_append.mpr (Or.inr h)

theorem walk_nodup (groups : List (List Nat)) :
    ∀ (base result used : List Nat), result.Nodup → (∀ x ∈ result, x ∈ used) →
    (walkGroups groups base result used).Nodup := by
  intro base
  induction base with
  | nil =>
    intro result used h1 _
    exact h1
  | cons pr rest ih =>
    intro result used h1 h2
    rw [walkGroups]
    split
    · exact ih _ _ h1 h2
    · rename_i hpr
      split
      · rename_i g hfind
        obtain ⟨hn, hs⟩ := emitGroup_preserves g result used h1 h2
        exact ih _ _ hn hs
      · apply ih
        · exact List.nodup_append.mpr ⟨h1, List.nodup_singleton pr,
            fun a ha hmem => hpr (((by simpa using hmem : a = pr)) ▸ h2 a ha)⟩
        · intro y hy
          rcases List.mem_append.mp hy with h | h
          · exact List.mem_append.mpr (Or.inl (h2 y h))
          · exact List.mem_append.mpr (Or.inr h)

theorem walk_emits (groups : List (List Nat))
    (hdisj : ∀ g ∈ groups, ∀ g2 ∈ groups, g ≠ g2 → ∀ x ∈ g, x ∉ g2)
    (hgnd : ∀ g ∈ groups, g.Nodup) (gstar : List Nat) (hgs : gstar ∈ groups) :
    ∀ (base result used : List Nat),
    (∀ x ∈ result, x ∈ used) →
    (∀ g ∈ groups, (∀ x ∈ g, x ∉ used) ∨ ∃ A B, result = A ++ g ++ B) →
    ((∃ x ∈ gstar, x ∈ base) ∨ ∃ A B, result = A ++ gstar ++ B) →
    ∃ A B, walkGroups groups base result used = A ++ gstar ++ B := by
  intro base
  induction base with
  | nil =>
    intro result used _ _ htgt
    rcases htgt with ⟨x, _, hmem⟩ | ⟨A, B, hAB⟩
    · simp at hmem
    · exact ⟨A, B, hAB⟩
  | cons pr rest ih =>
    intro result used hsub hginv htgt
    rw [walkGroups]
    split
    · rename_i hpr
      apply ih _ _ hsub hginv
      rcases htgt with ⟨x, hx, hmem⟩ | hemit
      · rcases List.mem_cons.mp hmem with hxpr | hxrest
        · subst hxpr
          rcases hginv gstar hgs with huntouched | hemit
          · exact absurd hpr (huntouched x hx)
          · exact Or.inr hemit
        · exact Or.inl ⟨x, hx, hxrest⟩
      · exact Or.inr hemit
    · rename_i hpr
      split
      · rename_i g0 hfind
        have hps := List.find?_some hfind
        have hprg0 : pr ∈ g0 := of_decide_eq_true hps
        have hg0 : g0 ∈ groups := List.mem_of_find?_eq_some hfind
        have hg0un : ∀ x ∈ g0, x ∉ used := by
          rcases hginv g0 hg0 with h | ⟨A, B, hAB⟩
          · exact h
          · exact absurd (hsub pr (by
              rw [hAB]
              exact List.mem_append.mpr (Or.inl (List.mem_append.mpr (Or.inr hprg0)))))
              hpr
        have hemit : emitGroup g0 (result, used) = (result ++ g0, used ++ g0) :=
          emitGroup_untouched g0 result used (hgnd g0 hg0) hg0un
        show ∃ A B, walkGroups groups rest
          (emitGroup g0 (result, used)).1 (emitGroup g0 (result, used)).2 =
          A ++ gstar ++ B
        rw [hemit]
        apply ih
        · intro x hx
          rcases List.mem_append.mp hx with h | h
          · exact List.mem_append.mpr (Or.inl (hsub x h))
          · exact List.mem_append.mpr (Or.inr h)
        · intro g hg
          by_cases hgg0 : g = g0
          · subst hgg0
            exact Or.inr ⟨result, [], by simp⟩
          · rcases hginv g hg with h | ⟨A, B, hAB⟩
            · refine Or.inl (fun x hx hmem => ?_)
              rcases List.mem_append.mp hmem with h2 | h2
              · exact h x hx h2
              · exact hdisj g hg g0 hg0 hgg0 x hx h2
            · exact Or.inr ⟨A, B ++ g0, by rw [hAB]; simp⟩
        · rcases htgt with ⟨x, hx, hmem⟩ | ⟨A, B, hAB⟩
          · rcases List.mem_cons.mp hmem with hxpr | hxrest
            · subst hxpr
              have hgsg0 : gstar = g0 := by
                by_contra hne
                exact hdisj gstar hgs g0 hg0 hne x hx hprg0
              subst hgsg0
              exact Or.inr ⟨result, [], by simp⟩
            · exact Or.inl ⟨x, hx, hxrest⟩
          · exact Or.inr ⟨A, B ++ g0, by rw [hAB]; simp⟩
      · rename_i hfind
        have hnog : ∀ g ∈ groups, pr ∉ g := by
          intro g hg hmem
          have := List.find?_eq_none.mp hfind g hg
          simp at this
          exact this hmem
        apply ih
        · intro x hx
          rcases List.mem_append.mp hx with h | h
          · exact List.mem_append.mpr (Or.inl (hsub x h))
          · exact List.mem_append.mpr (Or.inr h)
        · intro g hg
          rcases hginv g hg with h | ⟨A, B, hAB⟩
          · refine Or.inl (fun x hx hmem => ?_)
            rcases List.mem_append.mp hmem with h2 | h2
            · exact h x hx h2
            · exact hnog g hg (((by simpa using h2 : x = pr)) ▸ hx)
          · exact Or.inr ⟨A, B ++ [pr], by rw [hAB]; simp⟩
        · rcases htgt with ⟨x, hx, hmem⟩ | ⟨A, B, hAB⟩
          · rcases List.mem_cons.mp hmem with hxpr | hxrest
            · exact absurd (hxpr ▸ hx) (hnog gstar hgs)
            · exact Or.inl ⟨x, hx, hxrest⟩
          · exact Or.inr ⟨A, B ++ [pr], by rw [hAB]; simp⟩

theorem createdOf_eq {prs : List PRNode} (hnd : (prNumbersList prs).Nodup)
    {p : PRNode} (hp : p ∈ prs) : createdOf prs p.pr_number = p.created_at := by
  rw [createdOf]
  rcases hfind : prs.reverse.find? (fun pr => pr.pr_number == p.pr_number) with _ | q
  · exfalso
    have := List.find?_eq_none.mp hfind p (List.mem_reverse.mpr hp)
    simp at this
  · have hq := List.find?_some hfind
    have hqmem : q ∈ prs := List.mem_reverse.mp (List.mem_of_find?_eq_some hfind)
    have hqeq : q.pr_number = p.pr_number := by simpa using hq
    have hnd2 : (prs.map (fun pr => pr.pr_number)).Nodup := hnd
    have hqp : q = p := List.inj_on_of_nodup_map hnd2 hqmem hp hqeq
    rw [hfind, hqp]
    rfl

theorem indexOf_lt_of_sorted {key : Nat → Nat} {g : List Nat}
    (hsort : g.Pairwise (fun a b => key a ≤ key b)) {a b : Nat}
    (ha : a ∈ g) (hb : b ∈ g) (hlt : key a < key b) :
    List.indexOf a g < List.indexOf b g := by
  have hia := List.indexOf_lt_length.mpr ha
  have hib := List.indexOf_lt_length.mpr hb
  rcases Nat.lt_trichotomy (List.indexOf a g) (List.indexOf b g) with h | h | h
  · exact h
  · exfalso
    have hget : g.get ⟨List.indexOf a g, hia⟩ = g.get ⟨List.indexOf b g, hib⟩ := by
      congr 1
      exact Fin.ext h
    rw [List.indexOf_get, List.indexOf_get] at hget
    rw [hget] at hlt
    exact lt_irrefl _ hlt
  · exfalso
    have := List.pairwise_iff_get.mp hsort ⟨List.indexOf b g, hib⟩
      ⟨List.indexOf a g, hia⟩ (Fin.mk_lt_mk.mpr h)
    rw [List.indexOf_get, List.indexOf_get] at this
    exact absurd hlt (not_lt.mpr this)

theorem c7_final (prs : List PRNode) (base_order : List Nat)
    (hnd : (prNumbersList prs).Nodup)
    (hbase : ∀ n ∈ prNumbersList prs, n ∈ base_order)
    (p q : PRNode) (hp : p ∈ prs) (hq : q ∈ prs)
    (hne : p.pr_number ≠ q.pr_number)
    (hchain : Relation.ReflTransGen (sharesFile prs) p.pr_number q.pr_number)
    (hlt : p.created_at < q.created_at) :
    ∃ A g B, get_conflict_free_order prs base_order = A ++ g ++ B ∧
      p.pr_number ∈ g ∧ q.pr_number ∈ g ∧
      (∃ gr ∈ _find_conflict_groups prs, g = sortBy (createdOf prs) gr) ∧
      g.Pairwise (fun a b => createdOf prs a ≤ createdOf prs b) ∧
      (get_conflict_free_order prs base_order).Nodup ∧
      List.indexOf p.pr_number (get_conflict_free_order prs base_order) <
        List.indexOf q.pr_number (get_conflict_free_order prs base_order) := by
  have hpn : p.pr_number ∈ prNumbersList prs := by
    rw [prNumbersList]
    exact List.mem_map_of_mem _ hp
  have hqn : q.pr_number ∈ prNumbersList prs := by
    rw [prNumbersList]
    exact List.mem_map_of_mem _ hq
  have hroot := share_chain_root hchain
  obtain ⟨gr, hgr, hpgr, hqgr⟩ := exists_group hpn hqn hne hroot
  have hpg : p.pr_number ∈ sortBy (createdOf prs) gr :=
    (KahnProof.sortBy_perm (createdOf prs) gr).mem_iff.mpr hpgr
  have hqg : q.pr_number ∈ sortBy (createdOf prs) gr :=
    (KahnProof.sortBy_perm (createdOf prs) gr).mem_iff.mpr hqgr
  have hg2 : sortBy (createdOf prs) gr ∈
      (_find_conflict_groups prs).map (fun g => sortBy (createdOf prs) g) :=
    List.mem_map.mpr ⟨gr, hgr, rfl⟩
  have hdisj2 : ∀ a ∈ (_find_conflict_groups prs).map (fun g => sortBy (createdOf prs) g),
      ∀ b ∈ (_find_conflict_groups prs).map (fun g => sortBy (createdOf prs) g),
      a ≠ b → ∀ x ∈ a, x ∉ b := by
    intro a ha b hb hab x hxa hxb
    obtain ⟨ga, hga, haeq⟩ := List.mem_map.mp ha
    obtain ⟨gb, hgb, hbeq⟩ := List.mem_map.mp hb
    have hgagb : ga ≠ gb := fun h => hab (by rw [← haeq, ← hbeq, h])
    exact groups_disj hga hgb hgagb x
      ((KahnProof.sortBy_perm _ ga).mem_iff.mp (haeq ▸ hxa))
      ((KahnProof.sortBy_perm _ gb).mem_iff.mp (hbeq ▸ hxb))
  have hgnd2 : ∀ a ∈ (_find_conflict_groups prs).map (fun g => sortBy (createdOf prs) g),
      a.Nodup := by
    intro a ha
    obtain ⟨ga, hga, haeq⟩ := List.mem_map.mp ha
    rw [← haeq]
    exact ((KahnProof.sortBy_perm _ ga).nodup_iff).mpr (group_nodup hnd hga)
  obtain ⟨A, B, hAB⟩ := walk_emits
    ((_find_conflict_groups prs).map (fun g => sortBy (createdOf prs) g))
    hdisj2 hgnd2 (sortBy (createdOf prs) gr) hg2 base_order [] []
    (by simp) (fun g2 _ => Or.inl (by simp))
    (Or.inl ⟨p.pr_number, hpg, hbase _ hpn⟩)
  have hres : get_conflict_free_order prs base_order =
      walkGroups ((_find_conflict_groups prs).map (fun g => sortBy (createdOf prs) g))
        base_order [] [] := rfl
  have hfinal : get_conflict_free_order prs base_order =
      A ++ sortBy (createdOf prs) gr ++ B := by rw [hres, hAB]
  have hnodup : (get_conflict_free_order prs base_order).Nodup := by
    rw [hres]
    exact walk_nodup _ base_order [] [] List.nodup_nil (by simp)
  have hsorted := sorted_sortBy (createdOf prs) gr
  have hnAB : (A ++ sortBy (createdOf prs) gr ++ B).Nodup := hfinal ▸ hnodup
  rcases List.nodup_append.mp hnAB.of_append_left with ⟨_, _, hdisjAg⟩
  have hidx : ∀ r ∈ sortBy (createdOf prs) gr,
      List.indexOf r (A ++ sortBy (createdOf prs) gr ++ B) =
      A.length + List.indexOf r (sortBy (createdOf prs) gr) := by
    intro r hr
    have hrA : r ∉ A := fun h => hdisjAg h hr
    rw [List.append_assoc, List.indexOf_append_of_not_mem hrA,
      List.indexOf_append_of_mem hr]
  have hkey : createdOf prs p.pr_number < createdOf prs q.pr_number := by
    rw [createdOf_eq hnd hp, createdOf_eq hnd hq]
    exact hlt
  have hglt := indexOf_lt_of_sorted hsorted hpg hqg hkey
  refine ⟨A, sortBy (createdOf prs) gr, B, hfinal, hpg, hqg, ⟨gr, hgr, rfl⟩,
    hsorted, hnodup, ?_⟩
  rw [hfinal, hidx _ hpg, hidx _ hqg]
  exact Nat.add_lt_add_left hglt _

end ConflictProof

/-- **C7.** For every PR list and every base order covering its PR
numbers, two distinct PRs connected by a chain of shared changed files
land in one conflict group: `get_conflict_free_order` emits that group
contiguously (the whole output splits as `A ++ g ++ B`), the group is
sorted ascending by creation time, and the older-created of the two PRs
strictly precedes the newer one in the output. -/
theorem c7_conflict_free_order (prs : List ReviewAgent.PRNode)
    (base_order : List Nat)
    (hnd : (ReviewAgent.prNumbersList prs).Nodup)
    (hbase : ∀ n ∈ ReviewAgent.prNumbersList prs, n ∈ base_order)
    (p q : ReviewAgent.PRNode) (hp : p ∈ prs) (hq : q ∈ prs)
    (hne : p.pr_number ≠ q.pr_number)
    (hchain : Relation.ReflTransGen (ReviewAgent.sharesFile prs)
      p.pr_number q.pr_number)
    (hlt : p.created_at < q.created_at) :
    ∃ A g B,
      ReviewAgent.get_conflict_free_order prs base_order = A ++ g ++ B ∧
      p.pr_number ∈ g ∧ q.pr_number ∈ g ∧
      (∃ gr ∈ ReviewAgent._find_conflict_groups prs,
        g = ReviewAgent.sortBy (ReviewAgent.createdOf prs) gr) ∧
      g.Pairwise (fun a b =>
        ReviewAgent.createdOf prs a ≤ ReviewAgent.createdOf prs b) ∧
      (ReviewAgent.get_conflict_free_order prs base_order).Nodup ∧
      List.indexOf p.pr_number
          (ReviewAgent.get_conflict_free_order prs base_order) <
        List.indexOf q.pr_number
          (ReviewAgent.get_conflict_free_order prs base_order) :=
  ConflictProof.c7_final prs base_order hnd hbase p q hp hq hne hchain hlt

/-- Witness for C7: scenario S3 — PRs 1 and 2 both modify `shared.py`
with creation times 0 and 1; from the base order `[2, 1]` the
conflict-free order still emits PR 1 strictly before PR 2 inside one
contiguous group sorted by creation time. -/
theorem c7_conflict_free_order_witness :
    ∃ A g B,
      ReviewAgent.get_conflict_free_order ReviewAgent.prs7 [2, 1] = A ++ g ++ B ∧
      (1 : Nat) ∈ g ∧ (2 : Nat) ∈ g ∧
      (∃ gr ∈ ReviewAgent._find_conflict_groups ReviewAgent.prs7,
        g = ReviewAgent.sortBy (ReviewAgent.createdOf ReviewAgent.prs7) gr) ∧
      g.Pairwise (fun a b =>
        ReviewAgent.createdOf ReviewAgent.prs7 a ≤
        ReviewAgent.createdOf ReviewAgent.prs7 b) ∧
      (ReviewAgent.get_conflict_free_order ReviewAgent.prs7 [2, 1]).Nodup ∧
      List.indexOf 1 (ReviewAgent.get_conflict_free_order ReviewAgent.prs7 [2, 1]) <
        List.indexOf 2 (ReviewAgent.get_conflict_free_order ReviewAgent.prs7 [2, 1]) := by
  refine c7_conflict_free_order ReviewAgent.prs7 [2, 1] (by decide) (by decide)
    ReviewAgent.pr7a ReviewAgent.pr7b (by simp [ReviewAgent.prs7])
    (by simp [ReviewAgent.prs7]) (by decide) ?_ (by decide)
  exact Relation.ReflTransGen.single ⟨"shared.py", by decide, by decide⟩
